import Mathlib

/-!
Verification of the layer-attribution and size-rollup engine of
`gitlab_registry_usage` (shallow embedding of
`gitlab_registry_usage/registry/high_level_api.py`).

Python dictionaries are embedded as ordered association lists with Python's
insertion semantics: an existing key keeps its position and receives the new
value, a new key is appended at the end.  Integer sizes are embedded as `Int`
(Python integers are unbounded).  Dictionary accesses that would raise
`KeyError` in Python are totalised with a default; every such access is shown
(or hypothesised) to hit a present key in the theorems that rely on it.
-/

set_option autoImplicit false
set_option linter.unusedSectionVars false

namespace GitlabRegistryUsage

/-- Association list lookup: the first binding of a key wins (Python `d[k]`,
totalised to `Option`). -/
def alookup {α β : Type} [DecidableEq α] : List (α × β) → α → Option β
  | [], _ => none
  | (k, v) :: rest, a => if a = k then some v else alookup rest a

/-- Association list insertion with Python `dict` semantics: an existing key
keeps its position and gets the new value; a new key is appended at the end. -/
def insertA {α β : Type} [DecidableEq α] : List (α × β) → α → β → List (α × β)
  | [], k, v => [(k, v)]
  | (k', v') :: rest, k, v => if k = k' then (k', v) :: rest else (k', v') :: insertA rest k v

/-- The keys of an association list, in order. -/
def keysA {α β : Type} (l : List (α × β)) : List α := l.map Prod.fst

/-- Map a function over the values of an association list, keys unchanged
(a Python dict comprehension `{k: f(k, v) for k, v in d.items()}`). -/
def mapVal {α β γ : Type} (f : α → β → γ) (l : List (α × β)) : List (α × γ) :=
  l.map fun p => (p.1, f p.1 p.2)

/-- Tag name ↦ ordered layer-digest list of one repository
(`Dict[str, List[str]]`). -/
abbrev TagMap := List (String × List String)

/-- Repository name ↦ its tag map, or `none` when the repository is
unavailable (`Dict[str, Optional[Dict[str, List[str]]]]`). -/
abbrev RegistryLayerMap := List (String × Option TagMap)

/-- Layer digest ↦ byte size (`Dict[str, int]`). -/
abbrev LayerSizeTable := List (String × Int)

/-- Layer digest ↦ owning (repository, tag)
(the `layer_to_origin` dictionary of `_get_primary_repository_layers`). -/
abbrev OwnerMap := List (String × (String × String))

/-! ## Attribution engine (`GitLabRegistry._get_primary_repository_layers`) -/

/-- One candidate step of the attribution scan: the body of the
`if layer in layers` block in `_get_primary_repository_layers`.  A digest
without an owner gets the candidate; an owned digest is reassigned exactly
when the candidate's layer list is strictly shorter than the current owner's
tag layer list (looked up afresh in `repository_layers`). -/
def update_origin (repository_layers : RegistryLayerMap) (owners : OwnerMap)
    (layer repo tag : String) (layers : List String) : OwnerMap :=
  match alookup owners layer with
  | none => insertA owners layer (repo, tag)
  | some origin =>
    match alookup repository_layers origin.1 with
    | some (some origin_tag_layers) =>
      if layers.length < ((alookup origin_tag_layers origin.2).getD []).length then
        insertA owners layer (repo, tag)
      else owners
    | _ => owners

/-- Inner loop of `_get_primary_repository_layers`: scan the tags of one
repository for a fixed digest. -/
def scan_tags (repository_layers : RegistryLayerMap) (repo layer : String) :
    TagMap → OwnerMap → OwnerMap
  | [], owners => owners
  | (tag, layers) :: rest, owners =>
    scan_tags repository_layers repo layer rest
      (if layer ∈ layers then update_origin repository_layers owners layer repo tag layers
       else owners)

/-- Middle loop of `_get_primary_repository_layers`: scan every repository for
a fixed digest, skipping unavailable repositories. -/
def scan_repositories (repository_layers : RegistryLayerMap) (layer : String) :
    List (String × Option TagMap) → OwnerMap → OwnerMap
  | [], owners => owners
  | (_, none) :: rest, owners => scan_repositories repository_layers layer rest owners
  | (repo, some tag_layers) :: rest, owners =>
    scan_repositories repository_layers layer rest
      (scan_tags repository_layers repo layer tag_layers owners)

/-- The `layer_to_origin` dictionary computed by
`_get_primary_repository_layers`: iterate the digests of the layer-size table
in order, scanning all repositories for each. -/
def layer_to_origin (repository_layers : RegistryLayerMap)
    (layer_sizes : LayerSizeTable) : OwnerMap :=
  (keysA layer_sizes).foldl
    (fun owners layer => scan_repositories repository_layers layer repository_layers owners) []

/-- The `primary_repository_layers` comprehension with an explicit owner map:
each tag's layer list filtered down to the digests this (repository, tag)
owns. -/
def primary_of (owners : OwnerMap) (repository_layers : RegistryLayerMap) : RegistryLayerMap :=
  mapVal (fun repo otl => otl.map (mapVal (fun tag layers =>
    layers.filter (fun layer => decide (alookup owners layer = some (repo, tag))))))
    repository_layers

/-- The `primary_repository_layers` property of `GitLabRegistry`. -/
def get_primary_repository_layers (repository_layers : RegistryLayerMap)
    (layer_sizes : LayerSizeTable) : RegistryLayerMap :=
  primary_of (layer_to_origin repository_layers layer_sizes) repository_layers

/-! ## Rollup engine (`tag_sizes` … `total_disk_size` properties) -/

/-- `self.layer_sizes[layer]`, totalised with default `0`. -/
def sizeD (layer_sizes : LayerSizeTable) (layer : String) : Int :=
  (alookup layer_sizes layer).getD 0

/-- The shared per-tag summation of `tag_sizes` and `tag_disk_sizes`: per tag,
the sum of the sizes of its listed layers (`unavailable` propagates as
`none`). -/
def sum_tag_map (layer_sizes : LayerSizeTable) (repository_layers : RegistryLayerMap) :
    List (String × Option (List (String × Int))) :=
  mapVal (fun _ otl => otl.map (mapVal (fun _ layers => (layers.map (sizeD layer_sizes)).sum)))
    repository_layers

/-- The shared per-repository summation of `repository_sizes` and
`repository_disk_sizes`. -/
def sum_repo_map (tag_size_map : List (String × Option (List (String × Int)))) :
    List (String × Option Int) :=
  mapVal (fun _ o => o.map (fun ts => (ts.map Prod.snd).sum)) tag_size_map

/-- The shared total summation of `total_size` and `total_disk_size`: sum of
the known (non-`None`) repository values. -/
def sum_total (repo_size_map : List (String × Option Int)) : Int :=
  (repo_size_map.filterMap Prod.snd).sum

/-- The `tag_sizes` property: per tag, the sum of the sizes of all its
layers. -/
def tag_sizes (repository_layers : RegistryLayerMap) (layer_sizes : LayerSizeTable) :
    List (String × Option (List (String × Int))) :=
  sum_tag_map layer_sizes repository_layers

/-- The `tag_disk_sizes` property: per tag, the sum of the sizes of the layers
it owns. -/
def tag_disk_sizes (repository_layers : RegistryLayerMap) (layer_sizes : LayerSizeTable) :
    List (String × Option (List (String × Int))) :=
  sum_tag_map layer_sizes (get_primary_repository_layers repository_layers layer_sizes)

/-- The `repository_sizes` property: per repository, the sum of its tag
sizes (`unavailable` propagates as `none`). -/
def repository_sizes (repository_layers : RegistryLayerMap) (layer_sizes : LayerSizeTable) :
    List (String × Option Int) :=
  sum_repo_map (tag_sizes repository_layers layer_sizes)

/-- The `repository_disk_sizes` property. -/
def repository_disk_sizes (repository_layers : RegistryLayerMap)
    (layer_sizes : LayerSizeTable) : List (String × Option Int) :=
  sum_repo_map (tag_disk_sizes repository_layers layer_sizes)

/-- The `total_size` property: sum of the known repository sizes. -/
def total_size (repository_layers : RegistryLayerMap) (layer_sizes : LayerSizeTable) : Int :=
  sum_total (repository_sizes repository_layers layer_sizes)

/-- The `total_disk_size` property: sum of the known repository disk sizes. -/
def total_disk_size (repository_layers : RegistryLayerMap) (layer_sizes : LayerSizeTable) : Int :=
  sum_total (repository_disk_sizes repository_layers layer_sizes)

/-! ## Layer map builder (`GitLabRegistry._get_repository_layers_and_layer_sizes`)

The external registry client (`low_level_api.py`) is a parameter: each
operation either returns a value or fails with one of the error classes.
`tagLayers` returns the manifest's layers as an ordered digest ↦ optional
size map (`get_tag_layers`'s `Dict[str, Optional[int]]`).  The builder also
returns the list of digests for which `get_layer_size` was invoked, in call
order, so that the number of size lookups is observable. -/

/-- The error classes of `low_level_api.py` that the builder can see. -/
inductive RegError : Type
  | authTokenError
  | tagsReadError
  | layersReadError
  | layerSizeReadError
  deriving DecidableEq, Repr

/-- The external registry client collaborator. -/
structure RegistryClient : Type where
  repositoryAuthToken : String → Except RegError String
  repositoryTags : String → String → Except RegError (List String)
  tagLayers : String → String → String → Except RegError (List (String × Option Int))
  layerSize : String → String → String → Except RegError Int

/-- The layer loop of `_get_repository_layers_and_layer_sizes` (lines 63–67):
for each layer of one tag, look the size up with `get_layer_size` when the
manifest attached no truthy size (`if not layer_size:` — `None` or `0`), and
store it in `layer_sizes`. -/
def process_layers (client : RegistryClient) (token repo : String) :
    List (String × Option Int) → LayerSizeTable → List String →
    Except RegError Unit × LayerSizeTable × List String
  | [], layer_sizes, lookup_log => (.ok (), layer_sizes, lookup_log)
  | (layer, osize) :: rest, layer_sizes, lookup_log =>
    match (match osize with | some s => if s = 0 then none else some s | none => none) with
    | some s => process_layers client token repo rest (insertA layer_sizes layer s) lookup_log
    | none =>
      match client.layerSize token repo layer with
      | .error e => (.error e, layer_sizes, lookup_log ++ [layer])
      | .ok s =>
        process_layers client token repo rest (insertA layer_sizes layer s)
          (lookup_log ++ [layer])

/-- The tag loop of `_get_repository_layers_and_layer_sizes` (lines 59–67):
record each tag's digest list in `current_repository_layers`, then process its
layers.  An error leaves `layer_sizes` as accumulated so far (the Python
`layer_sizes` dict outlives the `try` block) but discards the repository's
half-built tag map. -/
def process_tags (client : RegistryClient) (token repo : String) :
    List String → TagMap → LayerSizeTable → List String →
    Except RegError TagMap × LayerSizeTable × List String
  | [], acc, layer_sizes, lookup_log => (.ok acc, layer_sizes, lookup_log)
  | tag :: rest, acc, layer_sizes, lookup_log =>
    match client.tagLayers token repo tag with
    | .error e => (.error e, layer_sizes, lookup_log)
    | .ok tl =>
      match process_layers client token repo tl layer_sizes lookup_log with
      | (.error e, sizes', log') => (.error e, sizes', log')
      | (.ok _, sizes', log') =>
        process_tags client token repo rest (insertA acc tag (tl.map Prod.fst)) sizes' log'

/-- Processing of one repository: fetch its auth token (outside the `try`
block, so its failure is never caught), its tag list, then its tags. -/
def process_repository (client : RegistryClient) (repo : String)
    (layer_sizes : LayerSizeTable) (lookup_log : List String) :
    Except RegError TagMap × LayerSizeTable × List String :=
  match client.repositoryAuthToken repo with
  | .error e => (.error e, layer_sizes, lookup_log)
  | .ok token =>
    match client.repositoryTags token repo with
    | .error e => (.error e, layer_sizes, lookup_log)
    | .ok tags => process_tags client token repo tags [] layer_sizes lookup_log

/-- Whether an error is caught by the `except (TagsReadError, LayersReadError)`
clause of `_get_repository_layers_and_layer_sizes`. -/
def RegError.recoverable : RegError → Bool
  | .tagsReadError => true
  | .layersReadError => true
  | _ => false

/-- A processing result that does not abort the build: a success, or an error
the `except` clause catches. -/
def ok_or_recoverable {α : Type} : Except RegError α → Prop
  | .ok _ => True
  | .error e => e.recoverable = true

/-- The catalog loop of `_get_repository_layers_and_layer_sizes`: a repository
whose processing fails recoverably is recorded as `none` (unavailable) and the
build continues; any other error aborts the whole build. -/
def build_registry (client : RegistryClient) :
    List String → RegistryLayerMap → LayerSizeTable → List String →
    Except RegError (RegistryLayerMap × LayerSizeTable × List String)
  | [], repository_layers, layer_sizes, lookup_log =>
    .ok (repository_layers, layer_sizes, lookup_log)
  | repo :: rest, repository_layers, layer_sizes, lookup_log =>
    match process_repository client repo layer_sizes lookup_log with
    | (.ok tag_map, sizes', log') =>
      build_registry client rest (insertA repository_layers repo (some tag_map)) sizes' log'
    | (.error e, sizes', log') =>
      if e.recoverable then
        build_registry client rest (insertA repository_layers repo none) sizes' log'
      else .error e

/-! ## Specification-side characterisation of the attribution engine

The claims describe the attribution scan extensionally: for each digest, the
candidates are the (repository, tag) pairs of available repositories whose
layer list contains the digest, enumerated in map order; the first candidate
is assigned; a later candidate takes over exactly when its tag has strictly
fewer total layers.  The following definitions state that reading and are
proved equal to the source's nested scan. -/

/-- Total layer count of a tag, looked up in the registry layer map
(`len(self.repository_layers[r][t])`, totalised to `0` when absent). -/
def tag_len (repository_layers : RegistryLayerMap) (rt : String × String) : Nat :=
  match alookup repository_layers rt.1 with
  | some (some tag_layers) => ((alookup tag_layers rt.2).getD []).length
  | _ => 0

/-- The tags of one repository whose layer list contains `layer`, with their
layer lists. -/
def tag_candidates (layer : String) (tag_layers : TagMap) : TagMap :=
  tag_layers.filter (fun p => decide (layer ∈ p.2))

/-- All (repository, tag) candidates for a digest, paired with the length of
the layer list at their occurrence, in enumeration order; unavailable
repositories are skipped. -/
def repo_candidates (layer : String) (rs : List (String × Option TagMap)) :
    List ((String × String) × Nat) :=
  rs.flatMap (fun p =>
    match p.2 with
    | none => []
    | some tag_layers => (tag_candidates layer tag_layers).map (fun q => ((p.1, q.1), q.2.length)))

/-- The candidate (repository, tag) pairs for a digest, in enumeration
order. -/
def candidates (repository_layers : RegistryLayerMap) (layer : String) :
    List (String × String) :=
  (repo_candidates layer repository_layers).map Prod.fst

/-- One step of the candidate scan with an explicit length for the candidate's
occurrence (the length the source compares with). -/
def owner_step_len (repository_layers : RegistryLayerMap)
    (o : Option (String × String)) (c : String × String) (len : Nat) :
    Option (String × String) :=
  match o with
  | none => some c
  | some o' => if len < tag_len repository_layers o' then some c else some o'

/-- Candidate-scan step on (candidate, occurrence length) pairs. -/
def step_len (repository_layers : RegistryLayerMap)
    (o : Option (String × String)) (cl : (String × String) × Nat) :
    Option (String × String) :=
  owner_step_len repository_layers o cl.1 cl.2

/-- One step of the scan as the spec words it: a digest without an owner gets
the candidate; an owned digest is reassigned exactly when the candidate's tag
has strictly fewer total layers than the current owner's tag. -/
def step_by {α : Type} (f : α → Nat) (o : Option α) (c : α) : Option α :=
  match o with
  | none => some c
  | some o' => if f c < f o' then some c else some o'

/-- The owner a digest ends with, per the spec's description: scan the
candidates in order with `step_by`. -/
def spec_owner_scan (repository_layers : RegistryLayerMap)
    (cs : List (String × String)) : Option (String × String) :=
  cs.foldl (step_by (tag_len repository_layers)) none

/-- The first element of a list attaining the minimal value of `f`
(ties keep the earlier element). -/
def first_min_by {α : Type} (f : α → Nat) : List α → Option α
  | [] => none
  | a :: l =>
    match first_min_by f l with
    | none => some a
    | some b => if f b < f a then some b else some a

/-- All layer occurrences that are owned by the (repository, tag) they occur
in, flattened over the registry layer map in order.  Summing `sizeD` over this
list is the registry total disk size. -/
def owned_list (repository_layers : RegistryLayerMap) (owners : OwnerMap) : List String :=
  repository_layers.flatMap (fun p =>
    match p.2 with
    | none => []
    | some tag_layers =>
      tag_layers.flatMap (fun q =>
        q.2.filter (fun layer => decide (alookup owners layer = some (p.1, q.1)))))

/-- Whether a digest is owned by a repository with known (available)
status. -/
def is_known_owner (repository_layers : RegistryLayerMap) (owners : OwnerMap)
    (layer : String) : Bool :=
  match alookup owners layer with
  | some rt =>
    match alookup repository_layers rt.1 with
    | some (some _) => true
    | _ => false
  | none => false

/-- Whether a manifest entry carries no truthy size (`None` or `0`): exactly
the `if not layer_size:` test that makes the builder call `get_layer_size`. -/
def size_missing : Option Int → Bool
  | some s => decide (s = 0)
  | none => true

/-- The digests of one manifest whose entries carry no truthy size, in
manifest order: the lookups a fully processed tag performs, one per such
occurrence. -/
def unsized_layers (tl : List (String × Option Int)) : List String :=
  (tl.filter (fun p => size_missing p.2)).map Prod.fst

/-- The size lookups performed for one repository's tag list when no lookup
fails: each readable tag contributes its unsized occurrences in order, and a
failing tag read ends the repository's processing. -/
def repo_lookups (client : RegistryClient) (token repo : String) :
    List String → List String
  | [] => []
  | tag :: rest =>
    match client.tagLayers token repo tag with
    | .error _ => []
    | .ok tl => unsized_layers tl ++ repo_lookups client token repo rest

/-- The digests encountered processing one repository's tag list: each
readable tag contributes all its digests in order, and a failing tag read ends
the repository's processing. -/
def repo_digests (client : RegistryClient) (token repo : String) :
    List String → List String
  | [] => []
  | tag :: rest =>
    match client.tagLayers token repo tag with
    | .error _ => []
    | .ok tl => tl.map Prod.fst ++ repo_digests client token repo rest

/-- The size lookups performed for one repository: none when its auth token or
tag list cannot be read, otherwise those of its tag list. -/
def repository_lookups (client : RegistryClient) (repo : String) : List String :=
  match client.repositoryAuthToken repo with
  | .error _ => []
  | .ok token =>
    match client.repositoryTags token repo with
    | .error _ => []
    | .ok tags => repo_lookups client token repo tags

/-- The digests encountered processing one repository. -/
def repository_digests (client : RegistryClient) (repo : String) : List String :=
  match client.repositoryAuthToken repo with
  | .error _ => []
  | .ok token =>
    match client.repositoryTags token repo with
    | .error _ => []
    | .ok tags => repo_digests client token repo tags

/-- All size lookups a build of the catalog performs, in call order: one per
(tag, digest) occurrence without a truthy size among the processed tags. -/
def build_lookups (client : RegistryClient) : List String → List String
  | [] => []
  | repo :: rest => repository_lookups client repo ++ build_lookups client rest

/-- All digests a build of the catalog encounters, in processing order. -/
def build_digests (client : RegistryClient) : List String → List String
  | [] => []
  | repo :: rest => repository_digests client repo ++ build_digests client rest

/-- Decidable well-formedness: every available repository's tag map has
distinct tag keys (true of every Python `dict`). -/
def tag_keys_nodup (repository_layers : RegistryLayerMap) : Bool :=
  repository_layers.all (fun p =>
    match p.2 with
    | some tag_layers => decide ((keysA tag_layers).Nodup)
    | none => true)

/-- Decidable well-formedness: every tag's layer list has distinct digests
(true of builder output, whose lists are `dict` key lists). -/
def layer_lists_nodup (repository_layers : RegistryLayerMap) : Bool :=
  repository_layers.all (fun p =>
    match p.2 with
    | some tag_layers => tag_layers.all (fun q => decide q.2.Nodup)
    | none => true)

/-! ## Concrete instances used as counterexamples and witnesses -/

/-- The spec's worked example: `{A: {v1: [L1, L2]}, B: {v1: [L2, L3]}}`. -/
def exampleMapAB : RegistryLayerMap :=
  [("A", some [("v1", ["L1", "L2"])]), ("B", some [("v1", ["L2", "L3"])])]

/-- Sizes `L1 = 10, L2 = 20, L3 = 5` of the worked example. -/
def exampleSizes : LayerSizeTable := [("L1", 10), ("L2", 20), ("L3", 5)]

/-- The worked example extended with the single-layer tag `C: {v1: [L2]}`. -/
def exampleMapABC : RegistryLayerMap :=
  [("A", some [("v1", ["L1", "L2"])]), ("B", some [("v1", ["L2", "L3"])]),
   ("C", some [("v1", ["L2"])])]

/-- A client whose repository `r` has a readable tag `t1` (one sized layer
`L1`) and a tag `t2` whose layer list read fails: the repository degrades to
unavailable after `L1` has already entered the layer-size table. -/
def cexPartialClient : RegistryClient where
  repositoryAuthToken _ := .ok "tk"
  repositoryTags _ _ := .ok ["t1", "t2"]
  tagLayers _ _ tag := if tag = "t1" then .ok [("L1", some 5)] else .error .layersReadError
  layerSize _ _ _ := .error .layerSizeReadError

/-- A client whose repository `r` has two tags both listing digest `L` with no
attached size: the size of `L` must be resolved by lookup. -/
def cexDoubleLookupClient : RegistryClient where
  repositoryAuthToken _ := .ok "tk"
  repositoryTags _ _ := .ok ["t1", "t2"]
  tagLayers _ _ _ := .ok [("L", none)]
  layerSize _ _ _ := .ok 7

/-- A client where repository `a` fails its tag listing recoverably and
repository `b` hits a fatal layer-size lookup failure. -/
def cexPolicyClient : RegistryClient where
  repositoryAuthToken _ := .ok "tk"
  repositoryTags _ repo := if repo = "a" then .error .tagsReadError else .ok ["t"]
  tagLayers _ _ _ := .ok [("L", none)]
  layerSize _ _ _ := .error .layerSizeReadError

/-- A small registry where every read succeeds: one repository `r`, one tag
`t`, one layer `L1` of size `4`. -/
def okClient : RegistryClient where
  repositoryAuthToken _ := .ok "tk"
  repositoryTags _ _ := .ok ["t"]
  tagLayers _ _ _ := .ok [("L1", some 4)]
  layerSize _ _ _ := .error .layerSizeReadError

/-- Registry map of the zero-size counterexample: `L1` is shared by the
single-layer tag `A/v1` (its owner) and by `B/v1`. -/
def cexZeroMap : RegistryLayerMap :=
  [("A", some [("v1", ["L1"])]), ("B", some [("v1", ["L1", "L2"])])]

/-- Sizes of the zero-size counterexample: the shared layer `L1` has size
`0`. -/
def cexZeroSizes : LayerSizeTable := [("L1", 0), ("L2", 5)]

/-- A registry map with an unavailable repository `D`. -/
def exampleMapUnavailable : RegistryLayerMap :=
  [("D", none), ("A", some [("v1", ["L1"])])]

/-- The worked example's size table in reversed enumeration order. -/
def exampleSizesRev : LayerSizeTable := [("L3", 5), ("L2", 20), ("L1", 10)]

/-! ## Association-list lemmas -/

section AListLemmas

variable {α β γ : Type} [DecidableEq α]

@[simp]
theorem alookup_nil (a : α) : alookup ([] : List (α × β)) a = none := rfl

theorem alookup_cons (k : α) (v : β) (l : List (α × β)) (a : α) :
    alookup ((k, v) :: l) a = if a = k then some v else alookup l a := rfl

@[simp]
theorem keysA_nil : keysA ([] : List (α × β)) = [] := rfl

@[simp]
theorem keysA_cons (p : α × β) (l : List (α × β)) : keysA (p :: l) = p.1 :: keysA l := rfl

@[simp]
theorem mapVal_nil (f : α → β → γ) : mapVal f ([] : List (α × β)) = [] := rfl

@[simp]
theorem mapVal_cons (f : α → β → γ) (p : α × β) (l : List (α × β)) :
    mapVal f (p :: l) = (p.1, f p.1 p.2) :: mapVal f l := rfl

theorem alookup_insertA_self (l : List (α × β)) (k : α) (v : β) :
    alookup (insertA l k v) k = some v := by
  induction l with
  | nil => simp [insertA, alookup]
  | cons p rest ih =>
    obtain ⟨k', v'⟩ := p
    by_cases h : k = k' <;> simp [insertA, alookup, h, ih]

theorem alookup_insertA_ne (l : List (α × β)) (k : α) (v : β) (a : α) (h : a ≠ k) :
    alookup (insertA l k v) a = alookup l a := by
  induction l with
  | nil => simp [insertA, alookup, h]
  | cons p rest ih =>
    obtain ⟨k', v'⟩ := p
    by_cases hk : k = k'
    · subst hk
      simp [insertA, alookup, h]
    · by_cases ha : a = k' <;> simp [insertA, alookup, hk, ha, ih]

theorem mem_keysA_insertA (l : List (α × β)) (k : α) (v : β) (a : α) :
    a ∈ keysA (insertA l k v) ↔ a = k ∨ a ∈ keysA l := by
  induction l with
  | nil => simp [insertA, keysA]
  | cons p rest ih =>
    obtain ⟨k', v'⟩ := p
    by_cases hk : k = k'
    · subst hk
      simp [insertA, keysA]
    · simp [insertA, keysA, hk] at ih ⊢
      tauto

theorem keysA_insertA_nodup (l : List (α × β)) (k : α) (v : β)
    (h : (keysA l).Nodup) : (keysA (insertA l k v)).Nodup := by
  induction l with
  | nil => simp [insertA, keysA]
  | cons p rest ih =>
    obtain ⟨k', v'⟩ := p
    simp only [keysA_cons, List.nodup_cons] at h
    by_cases hk : k = k'
    · subst hk
      simpa [insertA, keysA] using h
    · simp only [insertA, if_neg hk, keysA_cons, List.nodup_cons]
      refine ⟨fun hmem => ?_, ih h.2⟩
      rcases (mem_keysA_insertA rest k v k').mp hmem with h1 | h1
      · exact hk h1.symm
      · exact h.1 h1

theorem alookup_eq_none_iff (l : List (α × β)) (a : α) :
    alookup l a = none ↔ a ∉ keysA l := by
  induction l with
  | nil => simp
  | cons p rest ih =>
    obtain ⟨k, v⟩ := p
    by_cases h : a = k <;> simp [alookup_cons, h, ih]

theorem alookup_mem (l : List (α × β)) (a : α) (b : β) (h : alookup l a = some b) :
    (a, b) ∈ l := by
  induction l with
  | nil => simp [alookup] at h
  | cons p rest ih =>
    obtain ⟨k, v⟩ := p
    by_cases hk : a = k
    · subst hk
      simp only [alookup_cons, if_pos rfl] at h
      cases h
      exact List.mem_cons_self _ _
    · simp only [alookup_cons, if_neg hk] at h
      exact List.mem_cons_of_mem _ (ih h)

theorem mem_keysA_of_alookup (l : List (α × β)) (a : α) (b : β)
    (h : alookup l a = some b) : a ∈ keysA l := by
  have := alookup_mem l a b h
  exact List.mem_map_of_mem Prod.fst this

theorem alookup_isSome_iff (l : List (α × β)) (a : α) :
    (alookup l a).isSome = true ↔ a ∈ keysA l := by
  constructor
  · intro hs
    cases h : alookup l a with
    | none => rw [h] at hs; simp at hs
    | some b => exact mem_keysA_of_alookup l a b h
  · intro hm
    cases h : alookup l a with
    | none => exact absurd hm (by simpa using (alookup_eq_none_iff l a).mp h)
    | some b => simp

theorem alookup_of_mem_nodup (l : List (α × β)) (a : α) (b : β)
    (hnd : (keysA l).Nodup) (h : (a, b) ∈ l) : alookup l a = some b := by
  induction l with
  | nil => simp at h
  | cons p rest ih =>
    obtain ⟨k, v⟩ := p
    simp only [keysA_cons, List.nodup_cons] at hnd
    rcases List.mem_cons.mp h with h1 | h1
    · rw [Prod.ext_iff] at h1
      obtain ⟨h1a, h1b⟩ := h1
      simp only [] at h1a h1b
      subst h1a
      subst h1b
      simp [alookup_cons]
    · have hne : a ≠ k := by
        intro hak
        subst hak
        exact hnd.1 (List.mem_map_of_mem Prod.fst h1)
      simp [alookup_cons, hne, ih hnd.2 h1]

theorem value_eq_of_mem_nodup (l : List (α × β)) (a : α) (b b' : β)
    (hnd : (keysA l).Nodup) (h : (a, b) ∈ l) (h' : alookup l a = some b') : b = b' := by
  have := alookup_of_mem_nodup l a b hnd h
  rw [this] at h'
  exact (Option.some.injEq _ _).mp h'

theorem alookup_mapVal (f : α → β → γ) (l : List (α × β)) (a : α) :
    alookup (mapVal f l) a = (alookup l a).map (f a) := by
  induction l with
  | nil => simp
  | cons p rest ih =>
    obtain ⟨k, v⟩ := p
    by_cases h : a = k
    · subst h
      simp [alookup_cons]
    · simp [alookup_cons, h, ih]

theorem keysA_mapVal (f : α → β → γ) (l : List (α × β)) :
    keysA (mapVal f l) = keysA l := by
  induction l with
  | nil => rfl
  | cons p rest ih => simp [ih]

theorem mem_insertA (l : List (α × β)) (k : α) (v : β) (p : α × β)
    (h : p ∈ insertA l k v) : p ∈ l ∨ p = (k, v) := by
  induction l with
  | nil =>
    simp [insertA] at h
    exact Or.inr h
  | cons q rest ih =>
    obtain ⟨k', v'⟩ := q
    by_cases hk : k = k'
    · subst hk
      simp only [insertA, if_pos rfl] at h
      rcases List.mem_cons.mp h with h1 | h1
      · exact Or.inr (by simpa using h1)
      · exact Or.inl (List.mem_cons_of_mem _ h1)
    · simp only [insertA, if_neg hk] at h
      rcases List.mem_cons.mp h with h1 | h1
      · exact Or.inl (List.mem_cons.mpr (Or.inl h1))
      · rcases ih h1 with h2 | h2
        · exact Or.inl (List.mem_cons_of_mem _ h2)
        · exact Or.inr h2

end AListLemmas

/-! ## Localisation of the attribution scan

For a fixed digest, the nested repository/tag scan of
`_get_primary_repository_layers` only ever touches the owner-map entry of that
digest, and its effect on that entry is a left fold over the digest's
candidate list. -/

theorem update_origin_alookup_self (rl : RegistryLayerMap) (owners : OwnerMap)
    (layer repo tag : String) (layers : List String) :
    alookup (update_origin rl owners layer repo tag layers) layer
      = owner_step_len rl (alookup owners layer) (repo, tag) layers.length := by
  cases ho : alookup owners layer with
  | none => simp [update_origin, owner_step_len, ho, alookup_insertA_self]
  | some origin =>
    cases hr : alookup rl origin.1 with
    | none => simp [update_origin, owner_step_len, tag_len, ho, hr]
    | some otl' =>
      cases otl' with
      | none => simp [update_origin, owner_step_len, tag_len, ho, hr]
      | some otl =>
        by_cases hc : layers.length < ((alookup otl origin.2).getD []).length
        · simp [update_origin, owner_step_len, tag_len, ho, hr, hc, alookup_insertA_self]
        · simp [update_origin, owner_step_len, tag_len, ho, hr, hc]

theorem update_origin_alookup_ne (rl : RegistryLayerMap) (owners : OwnerMap)
    (layer repo tag : String) (layers : List String) (k : String) (h : k ≠ layer) :
    alookup (update_origin rl owners layer repo tag layers) k = alookup owners k := by
  cases ho : alookup owners layer with
  | none => simp [update_origin, ho, alookup_insertA_ne _ _ _ _ h]
  | some origin =>
    cases hr : alookup rl origin.1 with
    | none => simp [update_origin, ho, hr]
    | some otl' =>
      cases otl' with
      | none => simp [update_origin, ho, hr]
      | some otl =>
        by_cases hc : layers.length < ((alookup otl origin.2).getD []).length
        · simp [update_origin, ho, hr, hc, alookup_insertA_ne _ _ _ _ h]
        · simp [update_origin, ho, hr, hc]

theorem scan_tags_alookup_self (rl : RegistryLayerMap) (repo layer : String)
    (tl : TagMap) (owners : OwnerMap) :
    alookup (scan_tags rl repo layer tl owners) layer
      = ((tag_candidates layer tl).map (fun q => ((repo, q.1), q.2.length))).foldl
          (step_len rl) (alookup owners layer) := by
  induction tl generalizing owners with
  | nil => simp [scan_tags, tag_candidates]
  | cons p rest ih =>
    obtain ⟨t, ls⟩ := p
    by_cases hm : layer ∈ ls
    · have ht : tag_candidates layer ((t, ls) :: rest) = (t, ls) :: tag_candidates layer rest := by
        simp [tag_candidates, List.filter_cons, hm]
      simp only [scan_tags, if_pos hm]
      rw [ih, update_origin_alookup_self, ht]
      rfl
    · have ht : tag_candidates layer ((t, ls) :: rest) = tag_candidates layer rest := by
        simp [tag_candidates, List.filter_cons, hm]
      simp only [scan_tags, if_neg hm]
      rw [ih, ht]

theorem scan_tags_alookup_ne (rl : RegistryLayerMap) (repo layer : String)
    (tl : TagMap) (owners : OwnerMap) (k : String) (h : k ≠ layer) :
    alookup (scan_tags rl repo layer tl owners) k = alookup owners k := by
  induction tl generalizing owners with
  | nil => simp [scan_tags]
  | cons p rest ih =>
    obtain ⟨t, ls⟩ := p
    by_cases hm : layer ∈ ls
    · simp only [scan_tags, if_pos hm]
      rw [ih, update_origin_alookup_ne _ _ _ _ _ _ _ h]
    · simp only [scan_tags, if_neg hm]
      exact ih owners

theorem scan_repositories_alookup_self (rl : RegistryLayerMap) (layer : String)
    (rs : List (String × Option TagMap)) (owners : OwnerMap) :
    alookup (scan_repositories rl layer rs owners) layer
      = (repo_candidates layer rs).foldl (step_len rl) (alookup owners layer) := by
  induction rs generalizing owners with
  | nil => simp [scan_repositories, repo_candidates]
  | cons p rest ih =>
    obtain ⟨r, otl⟩ := p
    cases otl with
    | none =>
      simp only [scan_repositories, repo_candidates, List.flatMap_cons, List.nil_append]
      rw [ih]
      rfl
    | some tl =>
      simp only [scan_repositories, repo_candidates, List.flatMap_cons]
      rw [ih, List.foldl_append, scan_tags_alookup_self]
      rfl

theorem scan_repositories_alookup_ne (rl : RegistryLayerMap) (layer : String)
    (rs : List (String × Option TagMap)) (owners : OwnerMap) (k : String) (h : k ≠ layer) :
    alookup (scan_repositories rl layer rs owners) k = alookup owners k := by
  induction rs generalizing owners with
  | nil => simp [scan_repositories]
  | cons p rest ih =>
    obtain ⟨r, otl⟩ := p
    cases otl with
    | none => exact ih owners
    | some tl =>
      simp only [scan_repositories]
      rw [ih, scan_tags_alookup_ne _ _ _ _ _ _ h]

theorem foldl_scan_alookup (rl : RegistryLayerMap) (ds : List String)
    (owners : OwnerMap) (d : String) (hnd : ds.Nodup) :
    alookup (ds.foldl (fun ow layer => scan_repositories rl layer rl ow) owners) d
      = if d ∈ ds then (repo_candidates d rl).foldl (step_len rl) (alookup owners d)
        else alookup owners d := by
  induction ds generalizing owners with
  | nil => simp
  | cons e rest ih =>
    rw [List.nodup_cons] at hnd
    by_cases he : d = e
    · subst he
      simp only [List.foldl_cons, List.mem_cons, true_or, if_pos]
      rw [ih _ hnd.2, if_neg hnd.1, scan_repositories_alookup_self]
    · simp only [List.foldl_cons]
      rw [ih _ hnd.2, scan_repositories_alookup_ne _ _ _ _ _ he]
      by_cases hm : d ∈ rest
      · simp [hm, he]
      · simp [hm, he]

/-- The central characterisation: under distinct table keys, the owner of each
digest is the fold of the candidate scan over that digest's candidates, and a
digest absent from the layer-size table has no owner. -/
theorem layer_to_origin_alookup (rl : RegistryLayerMap) (sizes : LayerSizeTable)
    (hnd : (keysA sizes).Nodup) (d : String) :
    alookup (layer_to_origin rl sizes) d
      = if d ∈ keysA sizes then (repo_candidates d rl).foldl (step_len rl) none
        else none := by
  unfold layer_to_origin
  rw [foldl_scan_alookup rl (keysA sizes) [] d hnd]
  simp

/-! ## Candidate lists and the first-minimum characterisation -/

theorem mem_repo_candidates (layer : String) (rs : List (String × Option TagMap))
    (cl : (String × String) × Nat) (h : cl ∈ repo_candidates layer rs) :
    ∃ tl ls, (cl.1.1, some tl) ∈ rs ∧ (cl.1.2, ls) ∈ tl ∧ layer ∈ ls ∧ cl.2 = ls.length := by
  unfold repo_candidates at h
  rw [List.mem_flatMap] at h
  obtain ⟨p, hp, hcl⟩ := h
  obtain ⟨r, otl⟩ := p
  cases otl with
  | none => simp at hcl
  | some tl =>
    simp only [List.mem_map] at hcl
    obtain ⟨q, hq, hcl⟩ := hcl
    rw [tag_candidates, List.mem_filter] at hq
    refine ⟨tl, q.2, ?_, ?_, ?_, ?_⟩
    · rw [← hcl]; exact hp
    · rw [← hcl]; simpa using hq.1
    · exact of_decide_eq_true hq.2
    · rw [← hcl]

theorem repo_candidates_of_mem (layer : String) (rs : List (String × Option TagMap))
    (r t : String) (tl : TagMap) (ls : List String)
    (hr : (r, some tl) ∈ rs) (ht : (t, ls) ∈ tl) (hl : layer ∈ ls) :
    ((r, t), ls.length) ∈ repo_candidates layer rs := by
  unfold repo_candidates
  rw [List.mem_flatMap]
  refine ⟨(r, some tl), hr, ?_⟩
  simp only [List.mem_map]
  refine ⟨(t, ls), ?_, rfl⟩
  rw [tag_candidates, List.mem_filter]
  exact ⟨ht, decide_eq_true hl⟩

theorem mem_candidates_iff (rl : RegistryLayerMap) (layer : String) (r t : String) :
    (r, t) ∈ candidates rl layer
      ↔ ∃ tl ls, (r, some tl) ∈ rl ∧ (t, ls) ∈ tl ∧ layer ∈ ls := by
  constructor
  · intro h
    rw [candidates, List.mem_map] at h
    obtain ⟨cl, hcl, hrt⟩ := h
    obtain ⟨tl, ls, h1, h2, h3, _⟩ := mem_repo_candidates layer rl cl hcl
    rw [hrt] at h1 h2
    exact ⟨tl, ls, h1, h2, h3⟩
  · rintro ⟨tl, ls, h1, h2, h3⟩
    rw [candidates, List.mem_map]
    exact ⟨((r, t), ls.length), repo_candidates_of_mem layer rl r t tl ls h1 h2 h3, rfl⟩

/-- Under distinct repository and tag keys, the length recorded at each
candidate occurrence is the tag's looked-up total layer count. -/
theorem repo_candidates_len (rl : RegistryLayerMap) (layer : String)
    (H1 : (keysA rl).Nodup) (H2 : ∀ r tl, (r, some tl) ∈ rl → (keysA tl).Nodup)
    (cl : (String × String) × Nat) (h : cl ∈ repo_candidates layer rl) :
    cl.2 = tag_len rl cl.1 := by
  obtain ⟨tl, ls, h1, h2, _, h4⟩ := mem_repo_candidates layer rl cl h
  have hrl : alookup rl cl.1.1 = some (some tl) := alookup_of_mem_nodup rl _ _ H1 h1
  have htl : alookup tl cl.1.2 = some ls := alookup_of_mem_nodup tl _ _ (H2 _ tl h1) h2
  simp [tag_len, hrl, htl, h4]

theorem foldl_step_len_eq (rl : RegistryLayerMap) (cs : List ((String × String) × Nat))
    (h : ∀ cl ∈ cs, cl.2 = tag_len rl cl.1) (o : Option (String × String)) :
    cs.foldl (step_len rl) o = (cs.map Prod.fst).foldl (step_by (tag_len rl)) o := by
  induction cs generalizing o with
  | nil => rfl
  | cons cl rest ih =>
    rw [List.foldl_cons, List.map_cons, List.foldl_cons,
      ih (fun x hx => h x (List.mem_cons_of_mem _ hx))]
    have h1 := h cl (List.mem_cons_self _ _)
    cases o with
    | none => rfl
    | some o' =>
      have hstep : step_len rl (some o') cl = step_by (tag_len rl) (some o') cl.1 := by
        simp only [step_len, owner_step_len, step_by, h1]
      rw [hstep]

theorem first_min_by_cons_cons {α : Type} (f : α → Nat) (a b : α) (l : List α) :
    first_min_by f (a :: b :: l) = first_min_by f ((if f b < f a then b else a) :: l) := by
  by_cases hba : f b < f a
  · cases h : first_min_by f l with
    | none => simp [first_min_by, h, hba]
    | some c =>
      by_cases hcb : f c < f b
      · have hca : f c < f a := Nat.lt_trans hcb hba
        simp [first_min_by, h, hba, hcb, hca]
      · simp [first_min_by, h, hba, hcb]
  · cases h : first_min_by f l with
    | none => simp [first_min_by, h, hba]
    | some c =>
      by_cases hcb : f c < f b
      · simp [first_min_by, h, hba, hcb]
      · have hca : ¬ f c < f a := by omega
        simp [first_min_by, h, hba, hcb, hca]

theorem foldl_step_by_some {α : Type} (f : α → Nat) (l : List α) (o : α) :
    l.foldl (step_by f) (some o) = first_min_by f (o :: l) := by
  induction l generalizing o with
  | nil => simp [first_min_by]
  | cons c rest ih =>
    rw [List.foldl_cons]
    have hs : step_by f (some o) c = some (if f c < f o then c else o) := by
      by_cases hc : f c < f o <;> simp [step_by, hc]
    rw [hs, ih, ← first_min_by_cons_cons]

theorem foldl_step_by_none {α : Type} (f : α → Nat) (l : List α) :
    l.foldl (step_by f) none = first_min_by f l := by
  cases l with
  | nil => rfl
  | cons c rest =>
    rw [List.foldl_cons]
    exact foldl_step_by_some f rest c

theorem first_min_by_mem {α : Type} (f : α → Nat) (l : List α) (a : α)
    (h : first_min_by f l = some a) : a ∈ l := by
  induction l with
  | nil => simp [first_min_by] at h
  | cons b rest ih =>
    cases hr : first_min_by f rest with
    | none =>
      simp only [first_min_by, hr] at h
      cases h
      exact List.mem_cons_self _ _
    | some c =>
      simp only [first_min_by, hr] at h
      by_cases hc : f c < f b
      · rw [if_pos hc] at h
        cases h
        exact List.mem_cons_of_mem _ (ih hr)
      · rw [if_neg hc] at h
        cases h
        exact List.mem_cons_self _ _

theorem first_min_by_isSome {α : Type} (f : α → Nat) (l : List α) (h : l ≠ []) :
    (first_min_by f l).isSome = true := by
  cases l with
  | nil => exact absurd rfl h
  | cons b rest =>
    rw [first_min_by]
    cases first_min_by f rest with
    | none => rfl
    | some c =>
      by_cases hc : f c < f b <;> simp [hc]

/-- The attribution scan of the source equals the spec's candidate fold, and
that fold picks the first candidate of minimal tag layer count. -/
theorem attribution_characterisation (rl : RegistryLayerMap) (sizes : LayerSizeTable)
    (hs : (keysA sizes).Nodup) (H1 : (keysA rl).Nodup)
    (H2 : ∀ r tl, (r, some tl) ∈ rl → (keysA tl).Nodup)
    (d : String) (hd : d ∈ keysA sizes) :
    alookup (layer_to_origin rl sizes) d = spec_owner_scan rl (candidates rl d)
      ∧ spec_owner_scan rl (candidates rl d)
          = first_min_by (tag_len rl) (candidates rl d) := by
  constructor
  · rw [layer_to_origin_alookup rl sizes hs d, if_pos hd,
      foldl_step_len_eq rl _ (repo_candidates_len rl d H1 H2) none]
    rfl
  · exact foldl_step_by_none (tag_len rl) (candidates rl d)

/-! ## Well-formedness unfolding and owner-map facts -/

theorem tag_keys_nodup_spec (rl : RegistryLayerMap) (h : tag_keys_nodup rl = true) :
    ∀ r tl, (r, some tl) ∈ rl → (keysA tl).Nodup := by
  intro r tl hmem
  rw [tag_keys_nodup, List.all_eq_true] at h
  have := h _ hmem
  exact of_decide_eq_true this

theorem layer_lists_nodup_spec (rl : RegistryLayerMap) (h : layer_lists_nodup rl = true) :
    ∀ r tl t ls, (r, some tl) ∈ rl → (t, ls) ∈ tl → ls.Nodup := by
  intro r tl t ls hmem hmem2
  rw [layer_lists_nodup, List.all_eq_true] at h
  have h2 := h _ hmem
  simp only [List.all_eq_true] at h2
  exact of_decide_eq_true (h2 _ hmem2)

theorem update_origin_keys_nodup (rl : RegistryLayerMap) (owners : OwnerMap)
    (layer repo tag : String) (layers : List String)
    (h : (keysA owners).Nodup) :
    (keysA (update_origin rl owners layer repo tag layers)).Nodup := by
  cases ho : alookup owners layer with
  | none =>
    simp only [update_origin, ho]
    exact keysA_insertA_nodup _ _ _ h
  | some origin =>
    cases hr : alookup rl origin.1 with
    | none =>
      simp only [update_origin, ho, hr]
      exact h
    | some otl' =>
      cases otl' with
      | none =>
        simp only [update_origin, ho, hr]
        exact h
      | some otl =>
        by_cases hc : layers.length < ((alookup otl origin.2).getD []).length
        · simp only [update_origin, ho, hr, if_pos hc]
          exact keysA_insertA_nodup _ _ _ h
        · simp only [update_origin, ho, hr, if_neg hc]
          exact h

theorem scan_tags_keys_nodup (rl : RegistryLayerMap) (repo layer : String)
    (tl : TagMap) (owners : OwnerMap) (h : (keysA owners).Nodup) :
    (keysA (scan_tags rl repo layer tl owners)).Nodup := by
  induction tl generalizing owners with
  | nil => exact h
  | cons p rest ih =>
    obtain ⟨t, ls⟩ := p
    by_cases hm : layer ∈ ls
    · simp only [scan_tags, if_pos hm]
      exact ih _ (update_origin_keys_nodup rl owners layer repo t ls h)
    · simp only [scan_tags, if_neg hm]
      exact ih _ h

theorem scan_repositories_keys_nodup (rl : RegistryLayerMap) (layer : String)
    (rs : List (String × Option TagMap)) (owners : OwnerMap)
    (h : (keysA owners).Nodup) :
    (keysA (scan_repositories rl layer rs owners)).Nodup := by
  induction rs generalizing owners with
  | nil => exact h
  | cons p rest ih =>
    obtain ⟨r, otl⟩ := p
    cases otl with
    | none => exact ih _ h
    | some tl => exact ih _ (scan_tags_keys_nodup rl r layer tl owners h)

theorem foldl_scan_keys_nodup (rl : RegistryLayerMap) (ds : List String)
    (owners : OwnerMap) (h : (keysA owners).Nodup) :
    (keysA (ds.foldl (fun ow layer => scan_repositories rl layer rl ow) owners)).Nodup := by
  induction ds generalizing owners with
  | nil => exact h
  | cons e rest ih => exact ih _ (scan_repositories_keys_nodup rl e rl owners h)

theorem layer_to_origin_keys_nodup (rl : RegistryLayerMap) (sizes : LayerSizeTable) :
    (keysA (layer_to_origin rl sizes)).Nodup :=
  foldl_scan_keys_nodup rl (keysA sizes) [] (by simp [keysA])

theorem layer_to_origin_keys_sub (rl : RegistryLayerMap) (sizes : LayerSizeTable)
    (hs : (keysA sizes).Nodup) :
    ∀ d ∈ keysA (layer_to_origin rl sizes), d ∈ keysA sizes := by
  intro d hd
  by_contra hns
  have hc := layer_to_origin_alookup rl sizes hs d
  rw [if_neg hns] at hc
  rw [← alookup_isSome_iff] at hd
  rw [hc] at hd
  simp at hd

theorem layer_to_origin_sound (rl : RegistryLayerMap) (sizes : LayerSizeTable)
    (hs : (keysA sizes).Nodup) (H1 : (keysA rl).Nodup)
    (H2 : ∀ r tl, (r, some tl) ∈ rl → (keysA tl).Nodup)
    (d r t : String) (h : alookup (layer_to_origin rl sizes) d = some (r, t)) :
    ∃ tl ls, alookup rl r = some (some tl) ∧ alookup tl t = some ls ∧ d ∈ ls := by
  have hd : d ∈ keysA sizes := by
    apply layer_to_origin_keys_sub rl sizes hs
    rw [← alookup_isSome_iff, h]
    rfl
  obtain ⟨h1, h2⟩ := attribution_characterisation rl sizes hs H1 H2 d hd
  rw [h1, h2] at h
  have hmem := first_min_by_mem _ _ _ h
  rw [mem_candidates_iff] at hmem
  obtain ⟨tl, ls, m1, m2, m3⟩ := hmem
  exact ⟨tl, ls, alookup_of_mem_nodup _ _ _ H1 m1,
    alookup_of_mem_nodup _ _ _ (H2 _ _ m1) m2, m3⟩

theorem owner_step_len_some (rl : RegistryLayerMap) (o : String × String)
    (c : String × String) (n : Nat) :
    owner_step_len rl (some o) c n = some (if n < tag_len rl o then c else o) := by
  by_cases hc : n < tag_len rl o <;> simp [owner_step_len, hc]

theorem foldl_step_len_isSome (rl : RegistryLayerMap)
    (cs : List ((String × String) × Nat)) (h : cs ≠ []) :
    (cs.foldl (step_len rl) none).isSome = true := by
  have haux : ∀ (l : List ((String × String) × Nat)) (o : String × String),
      (l.foldl (step_len rl) (some o)).isSome = true := by
    intro l
    induction l with
    | nil => intro o; rfl
    | cons cl rest ih =>
      intro o
      rw [List.foldl_cons]
      show (rest.foldl (step_len rl) (owner_step_len rl (some o) cl.1 cl.2)).isSome = true
      rw [owner_step_len_some]
      exact ih _
  cases cs with
  | nil => exact absurd rfl h
  | cons cl rest =>
    rw [List.foldl_cons]
    show (rest.foldl (step_len rl) (owner_step_len rl none cl.1 cl.2)).isSome = true
    exact haux rest cl.1

theorem layer_to_origin_isSome (rl : RegistryLayerMap) (sizes : LayerSizeTable)
    (hs : (keysA sizes).Nodup) (d : String) (hd : d ∈ keysA sizes)
    (r t : String) (tl : TagMap) (ls : List String)
    (h1 : (r, some tl) ∈ rl) (h2 : (t, ls) ∈ tl) (h3 : d ∈ ls) :
    (alookup (layer_to_origin rl sizes) d).isSome = true := by
  rw [layer_to_origin_alookup rl sizes hs d, if_pos hd]
  apply foldl_step_len_isSome
  intro hnil
  have := repo_candidates_of_mem d rl r t tl ls h1 h2 h3
  rw [hnil] at this
  simp at this

/-! ## Summation lemmas -/

theorem sum_total_filter_key (m : List (String × Option Int)) (R : String)
    (h : ∀ p ∈ m, p.1 = R → p.2 = none) :
    sum_total m = sum_total (m.filter (fun p => !(p.1 == R))) := by
  induction m with
  | nil => rfl
  | cons p rest ih =>
    have ih' := ih (fun q hq => h q (List.mem_cons_of_mem _ hq))
    by_cases hp : p.1 = R
    · have hnone := h p (List.mem_cons_self _ _) hp
      have heq : (p.1 == R) = true := beq_iff_eq.mpr hp
      simp only [sum_total, List.filter_cons, List.filterMap_cons, heq, hnone,
        Bool.not_true, Bool.false_eq_true, if_false] at ih' ⊢
      exact ih'
    · have hne : (p.1 == R) = false := beq_eq_false_iff_ne.mpr hp
      cases hv : p.2 with
      | none =>
        simp only [sum_total, List.filter_cons, List.filterMap_cons, hv, hne,
          Bool.not_false, if_pos] at ih' ⊢
        simpa [hv] using ih'
      | some v =>
        simp only [sum_total, List.filter_cons, List.filterMap_cons, hv, hne,
          Bool.not_false, if_pos, List.sum_cons] at ih' ⊢
        rw [ih']

theorem sum_map_nonneg {α : Type} (l : List α) (f : α → Int)
    (h : ∀ x ∈ l, 0 ≤ f x) : 0 ≤ (l.map f).sum := by
  induction l with
  | nil => simp
  | cons x rest ih =>
    simp only [List.map_cons, List.sum_cons]
    have h1 := h x (List.mem_cons_self _ _)
    have h2 := ih (fun y hy => h y (List.mem_cons_of_mem _ hy))
    omega

theorem sum_map_filter_le {α : Type} (l : List α) (p : α → Bool) (f : α → Int)
    (h : ∀ x ∈ l, 0 ≤ f x) : ((l.filter p).map f).sum ≤ (l.map f).sum := by
  induction l with
  | nil => simp
  | cons x rest ih =>
    have h1 := h x (List.mem_cons_self _ _)
    have h2 := ih (fun y hy => h y (List.mem_cons_of_mem _ hy))
    by_cases hp : p x
    · simp only [List.filter_cons, hp, if_pos, List.map_cons, List.sum_cons]
      omega
    · simp only [List.filter_cons, List.map_cons, List.sum_cons, hp]
      simp only [Bool.false_eq_true, if_false]
      omega

theorem sum_map_filter_split {α : Type} (l : List α) (p : α → Bool) (f : α → Int) :
    (l.map f).sum = ((l.filter p).map f).sum + ((l.filter (fun x => !(p x))).map f).sum := by
  induction l with
  | nil => simp
  | cons x rest ih =>
    by_cases hp : p x <;>
      simp only [List.filter_cons, hp, List.map_cons, List.sum_cons, Bool.not_true,
        Bool.not_false, if_pos, Bool.false_eq_true, Bool.true_eq_false, if_false] <;>
      omega

theorem eq_nil_of_sum_eq_zero_of_pos (L : List Int) (h : ∀ x ∈ L, 0 < x)
    (hz : L.sum = 0) : L = [] := by
  cases L with
  | nil => rfl
  | cons x rest =>
    exfalso
    have h1 := h x (List.mem_cons_self _ _)
    have h2 := sum_map_nonneg rest id (fun y hy => le_of_lt (h y (List.mem_cons_of_mem _ hy)))
    simp only [List.map_id] at h2
    simp only [List.sum_cons] at hz
    omega

theorem sizeD_nonneg (sizes : LayerSizeTable) (hnn : ∀ p ∈ sizes, 0 ≤ p.2)
    (l : String) : 0 ≤ sizeD sizes l := by
  cases h : alookup sizes l with
  | none => simp [sizeD, h]
  | some v =>
    have := hnn _ (alookup_mem sizes l v h)
    simpa [sizeD, h] using this

theorem sizeD_pos (sizes : LayerSizeTable) (hpos : ∀ p ∈ sizes, 0 < p.2)
    (l : String) (hl : l ∈ keysA sizes) : 0 < sizeD sizes l := by
  have hs := (alookup_isSome_iff sizes l).mpr hl
  cases h : alookup sizes l with
  | none => rw [h] at hs; simp at hs
  | some v =>
    have := hpos _ (alookup_mem sizes l v h)
    simpa [sizeD, h] using this

/-! ## Claim theorems (snapshot level) -/

/-- C3: for every digest of the layer-size table, the attribution engine
computes the owner by scanning the candidates — the (repository, tag) pairs of
available repositories whose layer list contains the digest, in enumeration
order — assigning the first candidate and reassigning exactly when a later
candidate's tag has strictly fewer total layers; equivalently, the owner is
the first-encountered candidate with minimal tag layer count, so equal counts
keep the earlier candidate. -/
theorem attribution_first_candidate_fewest_layers (rl : RegistryLayerMap)
    (sizes : LayerSizeTable) (hs : (keysA sizes).Nodup) (H1 : (keysA rl).Nodup)
    (H2 : tag_keys_nodup rl = true) (d : String) (hd : d ∈ keysA sizes) :
    alookup (layer_to_origin rl sizes) d = spec_owner_scan rl (candidates rl d)
      ∧ spec_owner_scan rl (candidates rl d)
          = first_min_by (tag_len rl) (candidates rl d) :=
  attribution_characterisation rl sizes hs H1 (tag_keys_nodup_spec rl H2) d hd

/-- Witness for C3 at the spec's worked example and digest `L2`. -/
theorem attribution_first_candidate_fewest_layers_witness :
    alookup (layer_to_origin exampleMapAB exampleSizes) "L2"
        = spec_owner_scan exampleMapAB (candidates exampleMapAB "L2")
      ∧ spec_owner_scan exampleMapAB (candidates exampleMapAB "L2")
          = first_min_by (tag_len exampleMapAB) (candidates exampleMapAB "L2") :=
  attribution_first_candidate_fewest_layers exampleMapAB exampleSizes
    (by decide) (by decide) (by decide) "L2" (by decide)

/-- C8: attribution is deterministic — rerunning it on the same inputs gives
the same owner map — and the owner of every digest is unchanged when the
layer-size table is permuted (iteration order of digests does not matter). -/
theorem attribution_deterministic (rl : RegistryLayerMap) (s1 s2 : LayerSizeTable)
    (h1 : (keysA s1).Nodup) (h2 : (keysA s2).Nodup)
    (hk : (keysA s1).Perm (keysA s2)) :
    layer_to_origin rl s1 = layer_to_origin rl s1
      ∧ ∀ d, alookup (layer_to_origin rl s1) d = alookup (layer_to_origin rl s2) d := by
  refine ⟨rfl, fun d => ?_⟩
  rw [layer_to_origin_alookup rl s1 h1 d, layer_to_origin_alookup rl s2 h2 d]
  by_cases hm : d ∈ keysA s1
  · rw [if_pos hm, if_pos (hk.mem_iff.mp hm)]
  · rw [if_neg hm, if_neg (fun hc => hm (hk.mem_iff.mpr hc))]

/-- Witness for C8: the worked example's table forwards and reversed give
`L2` the same owner. -/
theorem attribution_deterministic_witness :
    alookup (layer_to_origin exampleMapAB exampleSizes) "L2"
      = alookup (layer_to_origin exampleMapAB exampleSizesRev) "L2" :=
  (attribution_deterministic exampleMapAB exampleSizes exampleSizesRev
    (by decide) (by decide) (by decide)).2 "L2"

/-- C9: the spec's worked example: with lexicographic enumeration, `L2` is
owned by `A/v1`, disk sizes are `A/v1 = 30`, `B/v1 = 5`, total disk size `35`,
total logical size `55`; after adding `C: {v1: [L2]}`, `L2` moves to `C/v1`,
`A/v1` drops to `10`, `C/v1` is `20`, and the total disk size is still
`35`. -/
theorem worked_example :
    alookup (layer_to_origin exampleMapAB exampleSizes) "L2" = some ("A", "v1")
      ∧ tag_disk_sizes exampleMapAB exampleSizes
          = [("A", some [("v1", 30)]), ("B", some [("v1", 5)])]
      ∧ total_disk_size exampleMapAB exampleSizes = 35
      ∧ total_size exampleMapAB exampleSizes = 55
      ∧ alookup (layer_to_origin exampleMapABC exampleSizes) "L2" = some ("C", "v1")
      ∧ tag_disk_sizes exampleMapABC exampleSizes
          = [("A", some [("v1", 10)]), ("B", some [("v1", 5)]), ("C", some [("v1", 20)])]
      ∧ total_disk_size exampleMapABC exampleSizes = 35 := by
  decide

/-- C4: an unavailable repository's entries in the tag-size, tag-disk-size,
repository-size and repository-disk-size maps are the unavailable sentinel
(`none`, never zero), and the totals equal the totals taken over the other
repositories' entries alone, with no error. -/
theorem unavailability_propagation (rl : RegistryLayerMap) (sizes : LayerSizeTable)
    (R : String) (hnd : (keysA rl).Nodup) (hR : alookup rl R = some none) :
    alookup (tag_sizes rl sizes) R = some none
      ∧ alookup (tag_disk_sizes rl sizes) R = some none
      ∧ alookup (repository_sizes rl sizes) R = some none
      ∧ alookup (repository_disk_sizes rl sizes) R = some none
      ∧ total_size rl sizes
          = sum_total ((repository_sizes rl sizes).filter (fun p => !(p.1 == R)))
      ∧ total_disk_size rl sizes
          = sum_total ((repository_disk_sizes rl sizes).filter (fun p => !(p.1 == R))) := by
  have h1 : alookup (tag_sizes rl sizes) R = some none := by
    simp only [tag_sizes, sum_tag_map]
    rw [alookup_mapVal, hR]
    rfl
  have hprim : alookup (get_primary_repository_layers rl sizes) R = some none := by
    simp only [get_primary_repository_layers, primary_of]
    rw [alookup_mapVal, hR]
    rfl
  have h2 : alookup (tag_disk_sizes rl sizes) R = some none := by
    simp only [tag_disk_sizes, sum_tag_map]
    rw [alookup_mapVal, hprim]
    rfl
  have h3 : alookup (repository_sizes rl sizes) R = some none := by
    simp only [repository_sizes, sum_repo_map]
    rw [alookup_mapVal, h1]
    rfl
  have h4 : alookup (repository_disk_sizes rl sizes) R = some none := by
    simp only [repository_disk_sizes, sum_repo_map]
    rw [alookup_mapVal, h2]
    rfl
  have hknd1 : (keysA (repository_sizes rl sizes)).Nodup := by
    simp only [repository_sizes, sum_repo_map, tag_sizes, sum_tag_map, keysA_mapVal]
    exact hnd
  have hknd2 : (keysA (repository_disk_sizes rl sizes)).Nodup := by
    simp only [repository_disk_sizes, sum_repo_map, tag_disk_sizes, sum_tag_map,
      get_primary_repository_layers, primary_of, keysA_mapVal]
    exact hnd
  refine ⟨h1, h2, h3, h4, ?_, ?_⟩
  · apply sum_total_filter_key
    rintro ⟨a, v⟩ hp rfl
    exact value_eq_of_mem_nodup _ _ _ _ hknd1 hp h3
  · apply sum_total_filter_key
    rintro ⟨a, v⟩ hp rfl
    exact value_eq_of_mem_nodup _ _ _ _ hknd2 hp h4

/-- Witness for C4 at a registry with unavailable repository `D`. -/
theorem unavailability_propagation_witness :
    alookup (tag_sizes exampleMapUnavailable [("L1", 3)]) "D" = some none
      ∧ alookup (tag_disk_sizes exampleMapUnavailable [("L1", 3)]) "D" = some none
      ∧ alookup (repository_sizes exampleMapUnavailable [("L1", 3)]) "D" = some none
      ∧ alookup (repository_disk_sizes exampleMapUnavailable [("L1", 3)]) "D" = some none
      ∧ total_size exampleMapUnavailable [("L1", 3)]
          = sum_total ((repository_sizes exampleMapUnavailable [("L1", 3)]).filter
              (fun p => !(p.1 == "D")))
      ∧ total_disk_size exampleMapUnavailable [("L1", 3)]
          = sum_total ((repository_disk_sizes exampleMapUnavailable [("L1", 3)]).filter
              (fun p => !(p.1 == "D"))) :=
  unavailability_propagation exampleMapUnavailable [("L1", 3)] "D" (by decide) (by decide)

/-- C5 counterexample: with all sizes non-negative (`L1 = 0`, `L2 = 5`), tag
`B/v1` has equal logical and disk size (both `5`) although it does not own its
layer `L1` — refuting "equality exactly when the tag owns all of its own
layers". -/
theorem logical_ge_disk_counterexample :
    (∀ p ∈ cexZeroSizes, 0 ≤ p.2)
      ∧ alookup cexZeroMap "B" = some (some [("v1", ["L1", "L2"])])
      ∧ "L1" ∈ ["L1", "L2"]
      ∧ alookup (layer_to_origin cexZeroMap cexZeroSizes) "L1" ≠ some ("B", "v1")
      ∧ alookup (tag_sizes cexZeroMap cexZeroSizes) "B" = some (some [("v1", 5)])
      ∧ alookup (tag_disk_sizes cexZeroMap cexZeroSizes) "B" = some (some [("v1", 5)]) := by
  decide

/-- C5 amended: for every tag of an available repository, with all layer sizes
non-negative the tag's disk size is at most its logical size, and equality
holds if the tag owns all of its own layers; the converse ("equality only
if") additionally requires every listed layer to have a strictly positive
size in the table. -/
theorem logical_ge_disk_amended (rl : RegistryLayerMap) (sizes : LayerSizeTable)
    (r t : String) (tl : TagMap) (ls : List String)
    (hr : alookup rl r = some (some tl)) (ht : alookup tl t = some ls)
    (hnn : ∀ p ∈ sizes, 0 ≤ p.2) :
    ∃ tsm tdm v w,
      alookup (tag_sizes rl sizes) r = some (some tsm)
        ∧ alookup tsm t = some v
        ∧ alookup (tag_disk_sizes rl sizes) r = some (some tdm)
        ∧ alookup tdm t = some w
        ∧ w ≤ v
        ∧ ((∀ l ∈ ls, alookup (layer_to_origin rl sizes) l = some (r, t)) → w = v)
        ∧ ((∀ p ∈ sizes, 0 < p.2) → (∀ l ∈ ls, l ∈ keysA sizes) →
            (w = v ↔ ∀ l ∈ ls, alookup (layer_to_origin rl sizes) l = some (r, t))) := by
  have htsm : alookup (tag_sizes rl sizes) r
      = some (some (mapVal (fun _ layers => (layers.map (sizeD sizes)).sum) tl)) := by
    simp only [tag_sizes, sum_tag_map]
    rw [alookup_mapVal, hr]
    rfl
  have hv : alookup (mapVal (fun _ layers => (layers.map (sizeD sizes)).sum) tl) t
      = some ((ls.map (sizeD sizes)).sum) := by
    rw [alookup_mapVal, ht]
    rfl
  have hprim : alookup (get_primary_repository_layers rl sizes) r
      = some (some (mapVal (fun tag layers =>
          layers.filter (fun layer =>
            decide (alookup (layer_to_origin rl sizes) layer = some (r, tag)))) tl)) := by
    simp only [get_primary_repository_layers, primary_of]
    rw [alookup_mapVal, hr]
    rfl
  have htdm : alookup (tag_disk_sizes rl sizes) r
      = some (some (mapVal (fun _ layers => (layers.map (sizeD sizes)).sum)
          (mapVal (fun tag layers =>
            layers.filter (fun layer =>
              decide (alookup (layer_to_origin rl sizes) layer = some (r, tag)))) tl))) := by
    simp only [tag_disk_sizes, sum_tag_map]
    rw [alookup_mapVal, hprim]
    rfl
  have hw : alookup (mapVal (fun _ layers => (layers.map (sizeD sizes)).sum)
        (mapVal (fun tag layers =>
          layers.filter (fun layer =>
            decide (alookup (layer_to_origin rl sizes) layer = some (r, tag)))) tl)) t
      = some (((ls.filter (fun layer =>
          decide (alookup (layer_to_origin rl sizes) layer = some (r, t)))).map
            (sizeD sizes)).sum) := by
    rw [alookup_mapVal, alookup_mapVal, ht]
    rfl
  refine ⟨_, _, _, _, htsm, hv, htdm, hw, ?_, ?_, ?_⟩
  · exact sum_map_filter_le ls _ (sizeD sizes) (fun x _ => sizeD_nonneg sizes hnn x)
  · intro hown
    have : ls.filter (fun layer =>
        decide (alookup (layer_to_origin rl sizes) layer = some (r, t))) = ls :=
      List.filter_eq_self.mpr (fun l hl => decide_eq_true (hown l hl))
    rw [this]
  · intro hpos hcover
    constructor
    · intro hwv l hl
      by_contra hno
      have hsplit := sum_map_filter_split ls
        (fun layer => decide (alookup (layer_to_origin rl sizes) layer = some (r, t)))
        (sizeD sizes)
      have hzero : (((ls.filter (fun layer =>
          !(decide (alookup (layer_to_origin rl sizes) layer = some (r, t))))).map
            (sizeD sizes)).sum) = 0 := by omega
      have hnil := eq_nil_of_sum_eq_zero_of_pos _ (fun x hx => by
        rw [List.mem_map] at hx
        obtain ⟨l', hl', rfl⟩ := hx
        rw [List.mem_filter] at hl'
        exact sizeD_pos sizes hpos l' (hcover l' hl'.1)) hzero
      rw [List.map_eq_nil_iff] at hnil
      have : l ∈ ls.filter (fun layer =>
          !(decide (alookup (layer_to_origin rl sizes) layer = some (r, t)))) := by
        rw [List.mem_filter]
        exact ⟨hl, by simp [hno]⟩
      rw [hnil] at this
      simp at this
    · intro hown
      have : ls.filter (fun layer =>
          decide (alookup (layer_to_origin rl sizes) layer = some (r, t))) = ls :=
        List.filter_eq_self.mpr (fun l hl => decide_eq_true (hown l hl))
      rw [this]

/-- Witness for C5 (amended) at the worked example's tag `A/v1`. -/
theorem logical_ge_disk_amended_witness :
    ∃ tsm tdm v w,
      alookup (tag_sizes exampleMapAB exampleSizes) "A" = some (some tsm)
        ∧ alookup tsm "v1" = some v
        ∧ alookup (tag_disk_sizes exampleMapAB exampleSizes) "A" = some (some tdm)
        ∧ alookup tdm "v1" = some w
        ∧ w ≤ v
        ∧ ((∀ l ∈ ["L1", "L2"],
              alookup (layer_to_origin exampleMapAB exampleSizes) l = some ("A", "v1")) →
            w = v)
        ∧ ((∀ p ∈ exampleSizes, 0 < p.2) → (∀ l ∈ ["L1", "L2"], l ∈ keysA exampleSizes) →
            (w = v ↔ ∀ l ∈ ["L1", "L2"],
              alookup (layer_to_origin exampleMapAB exampleSizes) l = some ("A", "v1"))) :=
  logical_ge_disk_amended exampleMapAB exampleSizes "A" "v1"
    [("v1", ["L1", "L2"])] ["L1", "L2"] (by decide) (by decide) (by decide)

/-! ## Conservation of disk sizes -/

theorem owned_list_cons (p : String × Option TagMap) (rest : List (String × Option TagMap))
    (owners : OwnerMap) :
    owned_list (p :: rest) owners
      = (match p.2 with
         | none => []
         | some tag_layers =>
           tag_layers.flatMap (fun q =>
             q.2.filter (fun layer => decide (alookup owners layer = some (p.1, q.1)))))
        ++ owned_list rest owners := by
  rw [owned_list, List.flatMap_cons]
  rfl

theorem sum_map_flatMap {α β : Type} (l : List α) (g : α → List β) (f : β → Int) :
    ((l.flatMap g).map f).sum = (l.map (fun x => ((g x).map f).sum)).sum := by
  induction l with
  | nil => rfl
  | cons x rest ih =>
    rw [List.flatMap_cons, List.map_append, List.sum_append, ih, List.map_cons, List.sum_cons]

theorem map_comp_mapVal {α β γ δ : Type} (g : α → β → γ) (h : α × γ → δ)
    (l : List (α × β)) :
    (mapVal g l).map h = l.map (fun p => h (p.1, g p.1 p.2)) := by
  induction l with
  | nil => rfl
  | cons p rest ih => simp only [mapVal_cons, List.map_cons, ih]

theorem sum_total_cons_none (r : String) (m : List (String × Option Int)) :
    sum_total ((r, none) :: m) = sum_total m := by
  simp [sum_total, List.filterMap_cons]

theorem sum_total_cons_some (r : String) (v : Int) (m : List (String × Option Int)) :
    sum_total ((r, some v) :: m) = v + sum_total m := by
  simp [sum_total, List.filterMap_cons]

/-- The registry total disk size is the sum of `sizeD` over all owned layer
occurrences, for any owner map. -/
theorem total_disk_eq_owned (owners : OwnerMap) (rl : RegistryLayerMap)
    (sizes : LayerSizeTable) :
    sum_total (sum_repo_map (sum_tag_map sizes (primary_of owners rl)))
      = ((owned_list rl owners).map (sizeD sizes)).sum := by
  induction rl with
  | nil => rfl
  | cons p rest ih =>
    obtain ⟨r, otl⟩ := p
    rw [owned_list_cons]
    simp only [primary_of, sum_tag_map, sum_repo_map] at ih ⊢
    cases otl with
    | none =>
      simp only [mapVal_cons, Option.map_none']
      rw [sum_total_cons_none, ih]
      rfl
    | some tl =>
      simp only [mapVal_cons, Option.map_some']
      rw [sum_total_cons_some, ih]
      rw [List.map_append, List.sum_append]
      congr 1
      rw [map_comp_mapVal, map_comp_mapVal, sum_map_flatMap]

theorem count_filter_pred_false {α : Type} [DecidableEq α] (l : List α) (p : α → Bool)
    (a : α) (h : p a = false) : (l.filter p).count a = 0 := by
  rw [List.count_eq_zero]
  intro hmem
  rw [List.mem_filter] at hmem
  rw [hmem.2] at h
  cases h

theorem count_filter_pred_true {α : Type} [DecidableEq α] (l : List α) (p : α → Bool)
    (a : α) (h : p a = true) : (l.filter p).count a = l.count a := by
  induction l with
  | nil => rfl
  | cons x rest ih =>
    by_cases hx : a = x
    · subst hx
      rw [List.filter_cons, h]
      simp [ih]
    · rw [List.filter_cons]
      by_cases hp : p x = true
      · simp only [hp, if_pos]
        rw [List.count_cons_of_ne hx, List.count_cons_of_ne hx, ih]
      · simp only [hp, Bool.false_eq_true, if_false]
        rw [List.count_cons_of_ne hx, ih]

theorem count_tag_flatMap_zero (owners : OwnerMap) (r : String) (tl : TagMap) (a : String)
    (h : ∀ q ∈ tl, decide (alookup owners a = some (r, q.1)) = false) :
    (tl.flatMap (fun q =>
      q.2.filter (fun layer => decide (alookup owners layer = some (r, q.1))))).count a
      = 0 := by
  induction tl with
  | nil => rfl
  | cons q rest ih =>
    rw [List.flatMap_cons, List.count_append,
      ih (fun q' hq' => h q' (List.mem_cons_of_mem _ hq')),
      count_filter_pred_false q.2
        (fun layer => decide (alookup owners layer = some (r, q.1))) a
        (h q (List.mem_cons_self _ _))]

theorem count_tag_flatMap_one (owners : OwnerMap) (r : String) (tl : TagMap)
    (a t : String) (ls : List String)
    (H2 : (keysA tl).Nodup) (H3 : ∀ t' ls', (t', ls') ∈ tl → ls'.Nodup)
    (ha : alookup owners a = some (r, t)) (ht : alookup tl t = some ls) (hmem : a ∈ ls) :
    (tl.flatMap (fun q =>
      q.2.filter (fun layer => decide (alookup owners layer = some (r, q.1))))).count a
      = 1 := by
  induction tl with
  | nil => simp [alookup] at ht
  | cons q rest ih =>
    obtain ⟨t0, ls0⟩ := q
    rw [List.flatMap_cons, List.count_append]
    simp only [keysA_cons, List.nodup_cons] at H2
    by_cases h0 : t = t0
    · subst h0
      rw [alookup_cons, if_pos rfl] at ht
      cases ht
      have hpred : decide (alookup owners a = some (r, t)) = true := by
        rw [ha]
        exact decide_eq_true rfl
      rw [count_filter_pred_true ls
          (fun layer => decide (alookup owners layer = some (r, t))) a hpred,
        List.count_eq_one_of_mem (H3 t ls (List.mem_cons_self _ _)) hmem,
        count_tag_flatMap_zero]
      intro q' hq'
      rw [ha, decide_eq_false_iff_not]
      intro hc
      simp only [Option.some.injEq, Prod.mk.injEq] at hc
      exact H2.1 (by rw [hc.2]; exact List.mem_map_of_mem Prod.fst hq')
    · rw [alookup_cons, if_neg h0] at ht
      have hf : decide (alookup owners a = some (r, t0)) = false := by
        rw [ha, decide_eq_false_iff_not]
        intro hc
        simp only [Option.some.injEq, Prod.mk.injEq] at hc
        exact h0 hc.2
      rw [ih H2.2 (fun t' ls' h' => H3 t' ls' (List.mem_cons_of_mem _ h')) ht,
        count_filter_pred_false ls0
          (fun layer => decide (alookup owners layer = some (r, t0))) a hf]

theorem count_owned_of_none (rl : RegistryLayerMap) (owners : OwnerMap) (a : String)
    (ha : alookup owners a = none) : (owned_list rl owners).count a = 0 := by
  induction rl with
  | nil => rfl
  | cons p rest ih =>
    obtain ⟨r, otl⟩ := p
    rw [owned_list_cons, List.count_append, ih]
    cases otl with
    | none => rfl
    | some tl =>
      rw [count_tag_flatMap_zero]
      intro q _
      rw [ha]
      rfl

theorem count_owned_zero_of_not_key (rest : List (String × Option TagMap))
    (owners : OwnerMap) (a r t : String)
    (ha : alookup owners a = some (r, t)) (hnk : r ∉ keysA rest) :
    (owned_list rest owners).count a = 0 := by
  induction rest with
  | nil => rfl
  | cons p rs ih =>
    obtain ⟨r1, otl1⟩ := p
    simp only [keysA_cons, List.mem_cons, not_or] at hnk
    rw [owned_list_cons, List.count_append, ih hnk.2]
    cases otl1 with
    | none => rfl
    | some tl1 =>
      rw [count_tag_flatMap_zero]
      intro q _
      rw [ha, decide_eq_false_iff_not]
      intro hc
      simp only [Option.some.injEq, Prod.mk.injEq] at hc
      exact hnk.1 hc.1

theorem count_owned_of_some (rl : RegistryLayerMap) (owners : OwnerMap)
    (a r t : String) (tl : TagMap) (ls : List String)
    (H1 : (keysA rl).Nodup)
    (H2 : ∀ r' tl', (r', some tl') ∈ rl → (keysA tl').Nodup)
    (H3 : ∀ r' tl' t' ls', (r', some tl') ∈ rl → (t', ls') ∈ tl' → ls'.Nodup)
    (ha : alookup owners a = some (r, t))
    (hr : alookup rl r = some (some tl)) (ht : alookup tl t = some ls) (hmem : a ∈ ls) :
    (owned_list rl owners).count a = 1 := by
  induction rl with
  | nil => simp [alookup] at hr
  | cons p rest ih =>
    obtain ⟨r0, otl0⟩ := p
    simp only [keysA_cons, List.nodup_cons] at H1
    rw [owned_list_cons, List.count_append]
    by_cases h0 : r = r0
    · subst h0
      rw [alookup_cons, if_pos rfl] at hr
      cases hr
      rw [count_owned_zero_of_not_key rest owners a r t ha H1.1,
        count_tag_flatMap_one owners r tl a t ls
          (H2 r tl (List.mem_cons_self _ _))
          (fun t' ls' h' => H3 r tl t' ls' (List.mem_cons_self _ _) h')
          ha ht hmem]
    · rw [alookup_cons, if_neg h0] at hr
      rw [ih H1.2 (fun r' tl' h' => H2 r' tl' (List.mem_cons_of_mem _ h'))
        (fun r' tl' t' ls' h' h'' => H3 r' tl' t' ls' (List.mem_cons_of_mem _ h') h'') hr]
      cases otl0 with
      | none => rfl
      | some tl0 =>
        rw [count_tag_flatMap_zero]
        intro q _
        rw [ha, decide_eq_false_iff_not]
        intro hc
        simp only [Option.some.injEq, Prod.mk.injEq] at hc
        exact h0 hc.1

theorem count_keysA_eq {α β : Type} [DecidableEq α] (l : List (α × β)) (a : α)
    (hnd : (keysA l).Nodup) :
    (keysA l).count a = if (alookup l a).isSome then 1 else 0 := by
  by_cases hm : a ∈ keysA l
  · rw [if_pos ((alookup_isSome_iff l a).mpr hm)]
    exact List.count_eq_one_of_mem hnd hm
  · rw [List.count_eq_zero_of_not_mem hm, if_neg]
    intro hc
    exact hm ((alookup_isSome_iff l a).mp hc)

/-- Every owned layer occurrence appears exactly once: the flattened owned
occurrences are a permutation of the owner map's digests. -/
theorem owned_list_perm (rl : RegistryLayerMap) (sizes : LayerSizeTable)
    (hs : (keysA sizes).Nodup) (H1 : (keysA rl).Nodup)
    (H2 : ∀ r tl, (r, some tl) ∈ rl → (keysA tl).Nodup)
    (H3 : ∀ r tl t ls, (r, some tl) ∈ rl → (t, ls) ∈ tl → ls.Nodup) :
    (owned_list rl (layer_to_origin rl sizes)).Perm
      (keysA (layer_to_origin rl sizes)) := by
  rw [List.perm_iff_count]
  intro a
  rw [count_keysA_eq _ _ (layer_to_origin_keys_nodup rl sizes)]
  cases ha : alookup (layer_to_origin rl sizes) a with
  | none =>
    rw [count_owned_of_none rl _ a ha]
    rfl
  | some rt =>
    obtain ⟨r, t⟩ := rt
    obtain ⟨tl, ls, hr, ht, hmem⟩ := layer_to_origin_sound rl sizes hs H1 H2 a r t ha
    rw [count_owned_of_some rl _ a r t tl ls H1 H2 H3 ha hr ht hmem]
    rfl

theorem sum_keys_sizeD (sizes : LayerSizeTable) (owners : OwnerMap)
    (hs : (keysA sizes).Nodup) (hknd : (keysA owners).Nodup)
    (hsub : ∀ d ∈ keysA owners, d ∈ keysA sizes) :
    ((keysA owners).map (sizeD sizes)).sum
      = ((sizes.filter (fun p => (alookup owners p.1).isSome)).map Prod.snd).sum := by
  have hndf : (keysA (sizes.filter (fun p => (alookup owners p.1).isSome))).Nodup := by
    have hsl : (sizes.filter (fun p => (alookup owners p.1).isSome)).Sublist sizes :=
      List.filter_sublist sizes
    exact List.Nodup.sublist (hsl.map Prod.fst) hs
  have hperm : (keysA (sizes.filter (fun p => (alookup owners p.1).isSome))).Perm
      (keysA owners) := by
    rw [List.perm_ext_iff_of_nodup hndf hknd]
    intro a
    constructor
    · intro hm
      rw [keysA, List.mem_map] at hm
      obtain ⟨p, hp, rfl⟩ := hm
      rw [List.mem_filter] at hp
      exact (alookup_isSome_iff owners p.1).mp hp.2
    · intro hm
      have hms : a ∈ keysA sizes := hsub a hm
      rw [keysA, List.mem_map] at hms
      obtain ⟨p, hp, rfl⟩ := hms
      rw [keysA, List.mem_map]
      refine ⟨p, ?_, rfl⟩
      rw [List.mem_filter]
      exact ⟨hp, (alookup_isSome_iff owners p.1).mpr hm⟩
  calc ((keysA owners).map (sizeD sizes)).sum
      = ((keysA (sizes.filter (fun p => (alookup owners p.1).isSome))).map
          (sizeD sizes)).sum := ((hperm.map (sizeD sizes)).sum_eq).symm
    _ = ((sizes.filter (fun p => (alookup owners p.1).isSome)).map
          (fun p => sizeD sizes p.1)).sum := by
        rw [keysA, List.map_map]
        rfl
    _ = ((sizes.filter (fun p => (alookup owners p.1).isSome)).map Prod.snd).sum := by
        congr 1
        apply List.map_congr_left
        intro p hp
        rw [List.mem_filter] at hp
        have := alookup_of_mem_nodup sizes p.1 p.2 hs (by
          have : p = (p.1, p.2) := rfl
          rw [← this]
          exact hp.1)
        simp [sizeD, this]

theorem filter_known_eq (rl : RegistryLayerMap) (sizes : LayerSizeTable)
    (hs : (keysA sizes).Nodup) (H1 : (keysA rl).Nodup)
    (H2 : ∀ r tl, (r, some tl) ∈ rl → (keysA tl).Nodup) :
    sizes.filter (fun p => is_known_owner rl (layer_to_origin rl sizes) p.1)
      = sizes.filter (fun p => (alookup (layer_to_origin rl sizes) p.1).isSome) := by
  apply List.filter_congr
  intro p _
  cases ha : alookup (layer_to_origin rl sizes) p.1 with
  | none => simp [is_known_owner, ha]
  | some rt =>
    obtain ⟨r, t⟩ := rt
    obtain ⟨tl, ls, hr, ht, hmem⟩ :=
      layer_to_origin_sound rl sizes hs H1 H2 p.1 r t ha
    simp [is_known_owner, ha, hr]

/-- C2: the registry total disk size equals both the sum of the known
repositories' disk sizes and the sum of the layer-size table entries of
digests owned by a known repository: no digest is counted twice and none is
lost. -/
theorem disk_size_conservation (rl : RegistryLayerMap) (sizes : LayerSizeTable)
    (hs : (keysA sizes).Nodup) (H1 : (keysA rl).Nodup)
    (H2b : tag_keys_nodup rl = true) (H3b : layer_lists_nodup rl = true) :
    total_disk_size rl sizes
        = ((sizes.filter (fun p =>
            is_known_owner rl (layer_to_origin rl sizes) p.1)).map Prod.snd).sum
      ∧ total_disk_size rl sizes = sum_total (repository_disk_sizes rl sizes) := by
  have H2 := tag_keys_nodup_spec rl H2b
  have H3 := layer_lists_nodup_spec rl H3b
  constructor
  · rw [show total_disk_size rl sizes
        = sum_total (sum_repo_map (sum_tag_map sizes
            (primary_of (layer_to_origin rl sizes) rl))) from rfl]
    rw [total_disk_eq_owned, ((owned_list_perm rl sizes hs H1 H2 H3).map
        (sizeD sizes)).sum_eq,
      sum_keys_sizeD sizes _ hs (layer_to_origin_keys_nodup rl sizes)
        (layer_to_origin_keys_sub rl sizes hs),
      filter_known_eq rl sizes hs H1 H2]
  · rfl

/-- Witness for C2 at the spec's worked example. -/
theorem disk_size_conservation_witness :
    total_disk_size exampleMapAB exampleSizes
        = ((exampleSizes.filter (fun p =>
            is_known_owner exampleMapAB (layer_to_origin exampleMapAB exampleSizes)
              p.1)).map Prod.snd).sum
      ∧ total_disk_size exampleMapAB exampleSizes
          = sum_total (repository_disk_sizes exampleMapAB exampleSizes) :=
  disk_size_conservation exampleMapAB exampleSizes
    (by decide) (by decide) (by decide) (by decide)

/-! ## Builder invariants -/

theorem process_layers_state (client : RegistryClient) (token repo : String) :
    ∀ (tl : List (String × Option Int)) (sizes : LayerSizeTable) (log : List String),
      (∀ k, k ∈ keysA sizes → k ∈ keysA (process_layers client token repo tl sizes log).2.1)
        ∧ ((keysA sizes).Nodup →
            (keysA (process_layers client token repo tl sizes log).2.1).Nodup)
        ∧ ((process_layers client token repo tl sizes log).1 = .ok () →
            ∀ p ∈ tl, p.1 ∈ keysA (process_layers client token repo tl sizes log).2.1) := by
  intro tl
  induction tl with
  | nil =>
    intro sizes log
    exact ⟨fun k hk => hk, fun h => h, fun _ p hp => absurd hp (List.not_mem_nil p)⟩
  | cons q rest ih =>
    intro sizes log
    obtain ⟨layer, osize⟩ := q
    cases hos : (match osize with
        | some s => if s = 0 then none else some s
        | none => none) with
    | some s =>
      have hred : process_layers client token repo ((layer, osize) :: rest) sizes log
          = process_layers client token repo rest (insertA sizes layer s) log := by
        simp only [process_layers, hos]
      rw [hred]
      obtain ⟨imono, indd, icov⟩ := ih (insertA sizes layer s) log
      refine ⟨?_, ?_, ?_⟩
      · intro k hk
        exact imono k ((mem_keysA_insertA sizes layer s k).mpr (Or.inr hk))
      · intro hnd
        exact indd (keysA_insertA_nodup sizes layer s hnd)
      · intro hok p hp
        rcases List.mem_cons.mp hp with h1 | h1
        · rw [h1]
          exact imono layer ((mem_keysA_insertA sizes layer s layer).mpr (Or.inl rfl))
        · exact icov hok p h1
    | none =>
      cases hls : client.layerSize token repo layer with
      | error e =>
        have hred : process_layers client token repo ((layer, osize) :: rest) sizes log
            = (.error e, sizes, log ++ [layer]) := by
          simp only [process_layers, hos, hls]
        rw [hred]
        exact ⟨fun k hk => hk, fun h => h, fun hok => by cases hok⟩
      | ok s =>
        have hred : process_layers client token repo ((layer, osize) :: rest) sizes log
            = process_layers client token repo rest (insertA sizes layer s)
                (log ++ [layer]) := by
          simp only [process_layers, hos, hls]
        rw [hred]
        obtain ⟨imono, indd, icov⟩ := ih (insertA sizes layer s) (log ++ [layer])
        refine ⟨?_, ?_, ?_⟩
        · intro k hk
          exact imono k ((mem_keysA_insertA sizes layer s k).mpr (Or.inr hk))
        · intro hnd
          exact indd (keysA_insertA_nodup sizes layer s hnd)
        · intro hok p hp
          rcases List.mem_cons.mp hp with h1 | h1
          · rw [h1]
            exact imono layer ((mem_keysA_insertA sizes layer s layer).mpr (Or.inl rfl))
          · exact icov hok p h1

theorem process_tags_state (client : RegistryClient) (token repo : String) :
    ∀ (tags : List String) (acc : TagMap) (sizes : LayerSizeTable) (log : List String),
      (∀ k, k ∈ keysA sizes →
          k ∈ keysA (process_tags client token repo tags acc sizes log).2.1)
        ∧ ((keysA sizes).Nodup →
            (keysA (process_tags client token repo tags acc sizes log).2.1).Nodup)
        ∧ (∀ tm, (process_tags client token repo tags acc sizes log).1 = .ok tm →
            ((keysA acc).Nodup → (keysA tm).Nodup)
              ∧ ((∀ t ls, (t, ls) ∈ acc → ∀ l ∈ ls, l ∈ keysA sizes) →
                  ∀ t ls, (t, ls) ∈ tm → ∀ l ∈ ls,
                    l ∈ keysA (process_tags client token repo tags acc sizes log).2.1)) := by
  intro tags
  induction tags with
  | nil =>
    intro acc sizes log
    refine ⟨fun k hk => hk, fun h => h, fun tm htm => ?_⟩
    have : acc = tm := by
      simpa [process_tags] using htm
    subst this
    exact ⟨fun h => h, fun hacc t ls hm l hl => hacc t ls hm l hl⟩
  | cons tag rest ih =>
    intro acc sizes log
    cases htl : client.tagLayers token repo tag with
    | error e =>
      have hred : process_tags client token repo (tag :: rest) acc sizes log
          = (.error e, sizes, log) := by
        simp only [process_tags, htl]
      rw [hred]
      exact ⟨fun k hk => hk, fun h => h, fun tm htm => by cases htm⟩
    | ok tl0 =>
      obtain ⟨plmono, plndd, plcov⟩ := process_layers_state client token repo tl0 sizes log
      cases hpl : process_layers client token repo tl0 sizes log with
      | mk fst1 rest1 =>
        obtain ⟨s1, lg1⟩ := rest1
        rw [hpl] at plmono plndd plcov
        cases fst1 with
        | error e =>
          have hred : process_tags client token repo (tag :: rest) acc sizes log
              = (.error e, s1, lg1) := by
            simp only [process_tags, htl, hpl]
          rw [hred]
          exact ⟨plmono, plndd, fun tm htm => by cases htm⟩
        | ok u =>
          obtain ⟨⟩ := u
          have hred : process_tags client token repo (tag :: rest) acc sizes log
              = process_tags client token repo rest
                  (insertA acc tag (tl0.map Prod.fst)) s1 lg1 := by
            simp only [process_tags, htl, hpl]
          rw [hred]
          obtain ⟨imono, indd, iok⟩ := ih (insertA acc tag (tl0.map Prod.fst)) s1 lg1
          refine ⟨fun k hk => imono k (plmono k hk), fun hnd => indd (plndd hnd),
            fun tm htm => ?_⟩
          obtain ⟨itm1, itm2⟩ := iok tm htm
          refine ⟨fun hnd => itm1 (keysA_insertA_nodup acc tag _ hnd), fun hacc => ?_⟩
          apply itm2
      -- coverage precondition for the grown accumulator
          intro t ls hm l hl
          rcases mem_insertA acc tag (tl0.map Prod.fst) (t, ls) hm with h1 | h1
          · exact plmono l (hacc t ls h1 l hl)
          · have hls : ls = tl0.map Prod.fst := congrArg Prod.snd h1
            rw [hls] at hl
            rw [List.mem_map] at hl
            obtain ⟨p, hp, rfl⟩ := hl
            exact plcov rfl p hp

theorem process_repository_state (client : RegistryClient) (repo : String)
    (sizes : LayerSizeTable) (log : List String) :
    (∀ k, k ∈ keysA sizes → k ∈ keysA (process_repository client repo sizes log).2.1)
      ∧ ((keysA sizes).Nodup →
          (keysA (process_repository client repo sizes log).2.1).Nodup)
      ∧ (∀ tm, (process_repository client repo sizes log).1 = .ok tm →
          (keysA tm).Nodup
            ∧ ∀ t ls, (t, ls) ∈ tm → ∀ l ∈ ls,
                l ∈ keysA (process_repository client repo sizes log).2.1) := by
  cases hat : client.repositoryAuthToken repo with
  | error e =>
    have hred : process_repository client repo sizes log = (.error e, sizes, log) := by
      simp only [process_repository, hat]
    rw [hred]
    exact ⟨fun k hk => hk, fun h => h, fun tm htm => by cases htm⟩
  | ok token =>
    cases hrt : client.repositoryTags token repo with
    | error e =>
      have hred : process_repository client repo sizes log = (.error e, sizes, log) := by
        simp only [process_repository, hat, hrt]
      rw [hred]
      exact ⟨fun k hk => hk, fun h => h, fun tm htm => by cases htm⟩
    | ok tags =>
      have hred : process_repository client repo sizes log
          = process_tags client token repo tags [] sizes log := by
        simp only [process_repository, hat, hrt]
      rw [hred]
      obtain ⟨tmono, tndd, tok⟩ := process_tags_state client token repo tags [] sizes log
      refine ⟨tmono, tndd, fun tm htm => ?_⟩
      obtain ⟨h1, h2⟩ := tok tm htm
      exact ⟨h1 (by simp [keysA]),
        h2 (fun t ls hm => absurd hm (List.not_mem_nil _))⟩

theorem build_registry_state (client : RegistryClient) :
    ∀ (catalog : List String) (rl0 : RegistryLayerMap) (sizes : LayerSizeTable)
      (log : List String) (rl : RegistryLayerMap) (s2 : LayerSizeTable)
      (log2 : List String),
      build_registry client catalog rl0 sizes log = .ok (rl, s2, log2) →
        (∀ k, k ∈ keysA sizes → k ∈ keysA s2)
          ∧ ((keysA sizes).Nodup → (keysA s2).Nodup)
          ∧ ((keysA rl0).Nodup → (keysA rl).Nodup)
          ∧ ((∀ r tl, (r, some tl) ∈ rl0 → (keysA tl).Nodup) →
              ∀ r tl, (r, some tl) ∈ rl → (keysA tl).Nodup)
          ∧ ((∀ r tl t ls, (r, some tl) ∈ rl0 → (t, ls) ∈ tl → ∀ l ∈ ls,
                l ∈ keysA sizes) →
              ∀ r tl t ls, (r, some tl) ∈ rl → (t, ls) ∈ tl → ∀ l ∈ ls,
                l ∈ keysA s2) := by
  intro catalog
  induction catalog with
  | nil =>
    intro rl0 sizes log rl s2 log2 hb
    have h := hb
    simp only [build_registry, Except.ok.injEq, Prod.mk.injEq] at h
    obtain ⟨h1, h2, h3⟩ := h
    subst h1
    subst h2
    exact ⟨fun k hk => hk, fun h => h, fun h => h, fun h => h, fun h => h⟩
  | cons repo rest ih =>
    intro rl0 sizes log rl s2 log2 hb
    obtain ⟨pmono, pndd, pok⟩ := process_repository_state client repo sizes log
    cases hpr : process_repository client repo sizes log with
    | mk fst1 rest1 =>
      obtain ⟨s1, lg1⟩ := rest1
      rw [hpr] at pmono pndd pok
      cases fst1 with
      | ok tm =>
        have hred : build_registry client (repo :: rest) rl0 sizes log
            = build_registry client rest (insertA rl0 repo (some tm)) s1 lg1 := by
          simp only [build_registry, hpr]
        rw [hred] at hb
        obtain ⟨htmn, htmc⟩ := pok tm rfl
        obtain ⟨imono, indd, irdd, itnd, icov⟩ := ih _ s1 lg1 rl s2 log2 hb
        refine ⟨fun k hk => imono k (pmono k hk), fun hnd => indd (pndd hnd),
          fun hnd => irdd (keysA_insertA_nodup rl0 repo (some tm) hnd), ?_, ?_⟩
        · intro hval
          apply itnd
          intro r tl hm
          rcases mem_insertA rl0 repo (some tm) (r, some tl) hm with h1 | h1
          · exact hval r tl h1
          · have h2 : some tl = some tm := congrArg Prod.snd h1
            cases h2
            exact htmn
        · intro hcov
          apply icov
          intro r tl t ls hm hm2 l hl
          rcases mem_insertA rl0 repo (some tm) (r, some tl) hm with h1 | h1
          · exact pmono l (hcov r tl t ls h1 hm2 l hl)
          · have h2 : some tl = some tm := congrArg Prod.snd h1
            cases h2
            exact htmc t ls hm2 l hl
      | error e =>
        by_cases hrec : e.recoverable = true
        · have hred : build_registry client (repo :: rest) rl0 sizes log
              = build_registry client rest (insertA rl0 repo none) s1 lg1 := by
            simp only [build_registry, hpr, hrec, if_pos]
          rw [hred] at hb
          obtain ⟨imono, indd, irdd, itnd, icov⟩ := ih _ s1 lg1 rl s2 log2 hb
          refine ⟨fun k hk => imono k (pmono k hk), fun hnd => indd (pndd hnd),
            fun hnd => irdd (keysA_insertA_nodup rl0 repo none hnd), ?_, ?_⟩
          · intro hval
            apply itnd
            intro r tl hm
            rcases mem_insertA rl0 repo none (r, some tl) hm with h1 | h1
            · exact hval r tl h1
            · have h2 : some tl = (none : Option TagMap) := congrArg Prod.snd h1
              cases h2
          · intro hcov
            apply icov
            intro r tl t ls hm hm2 l hl
            rcases mem_insertA rl0 repo none (r, some tl) hm with h1 | h1
            · exact pmono l (hcov r tl t ls h1 hm2 l hl)
            · have h2 : some tl = (none : Option TagMap) := congrArg Prod.snd h1
              cases h2
        · have hred : build_registry client (repo :: rest) rl0 sizes log = .error e := by
            simp only [build_registry, hpr, hrec, if_neg, Bool.false_eq_true]
            rfl
          rw [hred] at hb
          cases hb

/-! ## The lookup log of a successful build -/

theorem size_missing_of_truthy (osize : Option Int) (s0 : Int)
    (h : (match osize with
        | some s => if s = 0 then none else some s
        | none => none) = some s0) :
    size_missing osize = false := by
  cases osize with
  | none => cases h
  | some s =>
    by_cases hs : s = 0
    · rw [show (match some s with
          | some s => if s = 0 then none else some s
          | none => none) = (if s = 0 then none else some s : Option Int) from rfl,
        if_pos hs] at h
      cases h
    · simp [size_missing, hs]

theorem size_missing_of_falsy (osize : Option Int)
    (h : (match osize with
        | some s => if s = 0 then none else some s
        | none => none) = none) :
    size_missing osize = true := by
  cases osize with
  | none => rfl
  | some s =>
    by_cases hs : s = 0
    · simp [size_missing, hs]
    · rw [show (match some s with
          | some s => if s = 0 then none else some s
          | none => none) = (if s = 0 then none else some s : Option Int) from rfl,
        if_neg hs] at h
      cases h

/-- A failing layer loop fails with an error produced by `get_layer_size`. -/
theorem process_layers_error_source (client : RegistryClient) (token repo : String) :
    ∀ (tl : List (String × Option Int)) (sizes : LayerSizeTable) (log : List String)
      (e : RegError) (s1 : LayerSizeTable) (lg1 : List String),
      process_layers client token repo tl sizes log = (.error e, s1, lg1) →
        ∃ layer, client.layerSize token repo layer = .error e := by
  intro tl
  induction tl with
  | nil =>
    intro sizes log e s1 lg1 h
    cases h
  | cons q rest ih =>
    intro sizes log e s1 lg1 h
    obtain ⟨layer, osize⟩ := q
    cases hos : (match osize with
        | some s => if s = 0 then none else some s
        | none => none) with
    | some s =>
      rw [show process_layers client token repo ((layer, osize) :: rest) sizes log
          = process_layers client token repo rest (insertA sizes layer s) log from by
        simp only [process_layers, hos]] at h
      exact ih _ _ _ _ _ h
    | none =>
      cases hls : client.layerSize token repo layer with
      | error e1 =>
        rw [show process_layers client token repo ((layer, osize) :: rest) sizes log
            = (.error e1, sizes, log ++ [layer]) from by
          simp only [process_layers, hos, hls]] at h
        obtain ⟨h1, _, _⟩ := Prod.mk.injEq .. ▸ h
        cases h
        exact ⟨layer, hls⟩
      | ok s =>
        rw [show process_layers client token repo ((layer, osize) :: rest) sizes log
            = process_layers client token repo rest (insertA sizes layer s)
                (log ++ [layer]) from by
          simp only [process_layers, hos, hls]] at h
        exact ih _ _ _ _ _ h

/-- A successful layer loop logs exactly one lookup per occurrence without a
truthy size, in manifest order. -/
theorem process_layers_log (client : RegistryClient) (token repo : String) :
    ∀ (tl : List (String × Option Int)) (sizes : LayerSizeTable) (log : List String)
      (s1 : LayerSizeTable) (lg1 : List String),
      process_layers client token repo tl sizes log = (.ok (), s1, lg1) →
        lg1 = log ++ unsized_layers tl := by
  intro tl
  induction tl with
  | nil =>
    intro sizes log s1 lg1 h
    cases h
    simp [unsized_layers]
  | cons q rest ih =>
    intro sizes log s1 lg1 h
    obtain ⟨layer, osize⟩ := q
    cases hos : (match osize with
        | some s => if s = 0 then none else some s
        | none => none) with
    | some s =>
      rw [show process_layers client token repo ((layer, osize) :: rest) sizes log
          = process_layers client token repo rest (insertA sizes layer s) log from by
        simp only [process_layers, hos]] at h
      rw [ih _ _ _ _ h]
      simp only [unsized_layers, List.filter_cons, size_missing_of_truthy osize s hos,
        Bool.false_eq_true, if_false]
    | none =>
      cases hls : client.layerSize token repo layer with
      | error e1 =>
        rw [show process_layers client token repo ((layer, osize) :: rest) sizes log
            = (.error e1, sizes, log ++ [layer]) from by
          simp only [process_layers, hos, hls]] at h
        cases h
      | ok s =>
        rw [show process_layers client token repo ((layer, osize) :: rest) sizes log
            = process_layers client token repo rest (insertA sizes layer s)
                (log ++ [layer]) from by
          simp only [process_layers, hos, hls]] at h
        rw [ih _ _ _ _ h]
        simp [unsized_layers, List.filter_cons, size_missing_of_falsy osize hos]

/-- A tag loop that succeeds or fails recoverably — given a client whose size
lookups fail only with `LayerSizeReadError`, as `get_layer_size` does — logs
exactly the unsized occurrences of its readable prefix of tags, and sizes
every digest it encounters. -/
theorem process_tags_log (client : RegistryClient) (token repo : String)
    (hfat : ∀ tk rp layer e, client.layerSize tk rp layer = .error e →
      e = .layerSizeReadError) :
    ∀ (tags : List String) (acc : TagMap) (sizes : LayerSizeTable) (log : List String)
      (res : Except RegError TagMap) (s1 : LayerSizeTable) (lg1 : List String),
      process_tags client token repo tags acc sizes log = (res, s1, lg1) →
        ok_or_recoverable res →
        lg1 = log ++ repo_lookups client token repo tags
          ∧ ∀ l ∈ repo_digests client token repo tags, l ∈ keysA s1 := by
  intro tags
  induction tags with
  | nil =>
    intro acc sizes log res s1 lg1 h _
    cases h
    exact ⟨by simp [repo_lookups], fun l hl => by simp [repo_digests] at hl⟩
  | cons tag rest ih =>
    intro acc sizes log res s1 lg1 h hres
    cases htl : client.tagLayers token repo tag with
    | error e =>
      rw [show process_tags client token repo (tag :: rest) acc sizes log
          = (.error e, sizes, log) from by
        simp only [process_tags, htl]] at h
      cases h
      refine ⟨by simp [repo_lookups, htl], fun l hl => ?_⟩
      rw [repo_digests, htl] at hl
      cases hl
    | ok tl0 =>
      cases hpl : process_layers client token repo tl0 sizes log with
      | mk fst1 rest1 =>
        obtain ⟨s0, lg0⟩ := rest1
        cases fst1 with
        | error e1 =>
          obtain ⟨layer, hls⟩ :=
            process_layers_error_source client token repo tl0 sizes log e1 s0 lg0 hpl
          rw [show process_tags client token repo (tag :: rest) acc sizes log
              = (.error e1, s0, lg0) from by
            simp only [process_tags, htl, hpl]] at h
          cases h
          have hrec : RegError.recoverable e1 = true := hres
          rw [hfat token repo layer e1 hls] at hrec
          exact absurd hrec (by decide)
        | ok u =>
          obtain ⟨⟩ := u
          rw [show process_tags client token repo (tag :: rest) acc sizes log
              = process_tags client token repo rest
                  (insertA acc tag (tl0.map Prod.fst)) s0 lg0 from by
            simp only [process_tags, htl, hpl]] at h
          obtain ⟨ihlog, ihdig⟩ := ih _ _ _ _ _ _ h hres
          have hl0 : lg0 = log ++ unsized_layers tl0 :=
            process_layers_log client token repo tl0 sizes log s0 lg0 hpl
          constructor
          · rw [ihlog, hl0, repo_lookups, htl, List.append_assoc]
          · intro l hl
            rw [repo_digests, htl, List.mem_append] at hl
            rcases hl with hl | hl
            · rw [List.mem_map] at hl
              obtain ⟨p, hp, rfl⟩ := hl
              have hcov :=
                (process_layers_state client token repo tl0 sizes log).2.2
              rw [hpl] at hcov
              have hmem0 : p.1 ∈ keysA s0 := hcov rfl p hp
              have hmono :=
                (process_tags_state client token repo rest
                  (insertA acc tag (tl0.map Prod.fst)) s0 lg0).1
              rw [h] at hmono
              exact hmono p.1 hmem0
            · exact ihdig l hl

/-- One repository's processing — when it succeeds or fails recoverably —
logs exactly the repository's unsized occurrences and sizes every digest it
encounters. -/
theorem process_repository_log (client : RegistryClient)
    (hfat : ∀ tk rp layer e, client.layerSize tk rp layer = .error e →
      e = .layerSizeReadError)
    (repo : String) (sizes : LayerSizeTable) (log : List String)
    (res : Except RegError TagMap) (s1 : LayerSizeTable) (lg1 : List String)
    (h : process_repository client repo sizes log = (res, s1, lg1))
    (hres : ok_or_recoverable res) :
    lg1 = log ++ repository_lookups client repo
      ∧ ∀ l ∈ repository_digests client repo, l ∈ keysA s1 := by
  cases hat : client.repositoryAuthToken repo with
  | error e =>
    rw [show process_repository client repo sizes log = (.error e, sizes, log) from by
      simp only [process_repository, hat]] at h
    cases h
    refine ⟨by simp [repository_lookups, hat], fun l hl => ?_⟩
    simp [repository_digests, hat] at hl
  | ok token =>
    cases hrt : client.repositoryTags token repo with
    | error e =>
      rw [show process_repository client repo sizes log = (.error e, sizes, log) from by
        simp only [process_repository, hat, hrt]] at h
      cases h
      refine ⟨by simp [repository_lookups, hat, hrt], fun l hl => ?_⟩
      simp [repository_digests, hat, hrt] at hl
    | ok tags =>
      rw [show process_repository client repo sizes log
          = process_tags client token repo tags [] sizes log from by
        simp only [process_repository, hat, hrt]] at h
      obtain ⟨h1, h2⟩ := process_tags_log client token repo hfat tags [] sizes log
        res s1 lg1 h hres
      refine ⟨?_, fun l hl => ?_⟩
      · rw [h1]
        simp only [repository_lookups, hat, hrt]
      · simp only [repository_digests, hat, hrt] at hl
        exact h2 l hl

/-- A successful build's lookup log is exactly the catalog's unsized
occurrences in processing order, and every digest the build encounters is in
the final layer-size table. -/
theorem build_registry_log (client : RegistryClient)
    (hfat : ∀ tk rp layer e, client.layerSize tk rp layer = .error e →
      e = .layerSizeReadError) :
    ∀ (catalog : List String) (rl0 : RegistryLayerMap) (sizes : LayerSizeTable)
      (log : List String) (rl : RegistryLayerMap) (s2 : LayerSizeTable)
      (lg2 : List String),
      build_registry client catalog rl0 sizes log = .ok (rl, s2, lg2) →
        lg2 = log ++ build_lookups client catalog
          ∧ ∀ l ∈ build_digests client catalog, l ∈ keysA s2 := by
  intro catalog
  induction catalog with
  | nil =>
    intro rl0 sizes log rl s2 lg2 hb
    have h := hb
    simp only [build_registry, Except.ok.injEq, Prod.mk.injEq] at h
    obtain ⟨_, _, h3⟩ := h
    subst h3
    exact ⟨by simp [build_lookups], fun l hl => by simp [build_digests] at hl⟩
  | cons repo rest ih =>
    intro rl0 sizes log rl s2 lg2 hb
    cases hpr : process_repository client repo sizes log with
    | mk fst1 rest1 =>
      obtain ⟨s1, lg1⟩ := rest1
      cases fst1 with
      | ok tm =>
        rw [show build_registry client (repo :: rest) rl0 sizes log
            = build_registry client rest (insertA rl0 repo (some tm)) s1 lg1 from by
          simp only [build_registry, hpr]] at hb
        obtain ⟨hplog, hpdig⟩ :=
          process_repository_log client hfat repo sizes log (.ok tm) s1 lg1 hpr trivial
        obtain ⟨ihlog, ihdig⟩ := ih _ s1 lg1 rl s2 lg2 hb
        obtain ⟨hmono, _, _, _, _⟩ :=
          build_registry_state client rest _ s1 lg1 rl s2 lg2 hb
        refine ⟨by rw [ihlog, hplog, build_lookups, List.append_assoc], fun l hl => ?_⟩
        rw [build_digests, List.mem_append] at hl
        rcases hl with hl | hl
        · exact hmono l (hpdig l hl)
        · exact ihdig l hl
      | error e =>
        by_cases hrec : e.recoverable = true
        · rw [show build_registry client (repo :: rest) rl0 sizes log
              = build_registry client rest (insertA rl0 repo none) s1 lg1 from by
            simp only [build_registry, hpr, hrec, if_pos]] at hb
          obtain ⟨hplog, hpdig⟩ :=
            process_repository_log client hfat repo sizes log (.error e) s1 lg1 hpr hrec
          obtain ⟨ihlog, ihdig⟩ := ih _ s1 lg1 rl s2 lg2 hb
          obtain ⟨hmono, _, _, _, _⟩ :=
            build_registry_state client rest _ s1 lg1 rl s2 lg2 hb
          refine ⟨by rw [ihlog, hplog, build_lookups, List.append_assoc],
            fun l hl => ?_⟩
          rw [build_digests, List.mem_append] at hl
          rcases hl with hl | hl
          · exact hmono l (hpdig l hl)
          · exact ihdig l hl
        · rw [show build_registry client (repo :: rest) rl0 sizes log = .error e from by
            simp only [build_registry, hpr, hrec, Bool.false_eq_true, if_false]] at hb
          cases hb

/-! ## Claim theorems (builder level) -/

/-- C10: in every snapshot the builder produces, each digest listed by an
available repository's tag has an entry in the layer-size table and an owner
in the attribution map, so the derived maps never look up a missing key. -/
theorem builder_lookup_safety (client : RegistryClient) (catalog : List String)
    (rl : RegistryLayerMap) (sizes : LayerSizeTable) (log : List String)
    (hb : build_registry client catalog [] [] [] = .ok (rl, sizes, log))
    (r t l : String) (tl : TagMap) (ls : List String)
    (h1 : (r, some tl) ∈ rl) (h2 : (t, ls) ∈ tl) (h3 : l ∈ ls) :
    l ∈ keysA sizes ∧ (alookup (layer_to_origin rl sizes) l).isSome = true := by
  obtain ⟨_, hndd, _, _, hcov⟩ := build_registry_state client catalog [] [] [] rl sizes log hb
  have hs : (keysA sizes).Nodup := hndd (by simp [keysA])
  have hcov' := hcov (fun r' tl' t' ls' hm _ l' hl' => by simp [keysA] at hm)
  have hmem : l ∈ keysA sizes := hcov' r tl t ls h1 h2 l h3
  exact ⟨hmem, layer_to_origin_isSome rl sizes hs l hmem r t tl ls h1 h2 h3⟩

/-- Witness for C10 at a one-repository, one-tag, one-layer registry. -/
theorem builder_lookup_safety_witness :
    "L1" ∈ keysA [("L1", (4 : Int))]
      ∧ (alookup (layer_to_origin [("r", some [("t", ["L1"])])] [("L1", 4)])
          "L1").isSome = true :=
  builder_lookup_safety okClient ["r"] [("r", some [("t", ["L1"])])] [("L1", 4)] []
    (by rfl) "r" "t" "L1" [("t", ["L1"])] ["L1"] (by decide) (by decide) (by decide)

/-- C1 counterexample: the builder can leave a digest in the layer-size table
with no owner at all.  Repository `r`'s tag `t1` is read first (sizing `L1`),
then tag `t2`'s layer read fails, so `r` degrades to unavailable — yet `L1`
stays in the table and the attribution engine assigns it no owner. -/
theorem ownership_totality_counterexample :
    build_registry cexPartialClient ["r"] [] [] []
        = .ok ([("r", none)], [("L1", 5)], [])
      ∧ "L1" ∈ keysA [("L1", (5 : Int))]
      ∧ alookup (layer_to_origin [("r", none)] [("L1", 5)]) "L1" = none :=
  ⟨by rfl, by decide, by decide⟩

/-- C1 amended: in every snapshot the builder produces, every digest that
occurs in the layer list of an *available* repository is assigned exactly one
owner (the owner map's keys are distinct), and that owner's tag layer list
contains the digest.  Digests left in the table by a repository that later
degraded to unavailable may have no owner. -/
theorem ownership_totality_amended (client : RegistryClient) (catalog : List String)
    (rl : RegistryLayerMap) (sizes : LayerSizeTable) (log : List String)
    (hb : build_registry client catalog [] [] [] = .ok (rl, sizes, log))
    (d r t : String) (tl : TagMap) (ls : List String)
    (h1 : (r, some tl) ∈ rl) (h2 : (t, ls) ∈ tl) (h3 : d ∈ ls) :
    (keysA (layer_to_origin rl sizes)).Nodup
      ∧ ∃ r' t' tl' ls',
          alookup (layer_to_origin rl sizes) d = some (r', t')
            ∧ alookup rl r' = some (some tl')
            ∧ alookup tl' t' = some ls'
            ∧ d ∈ ls' := by
  obtain ⟨_, hndd, hrdd, htnd, hcov⟩ :=
    build_registry_state client catalog [] [] [] rl sizes log hb
  have hs : (keysA sizes).Nodup := hndd (by simp [keysA])
  have H1 : (keysA rl).Nodup := hrdd (by simp [keysA])
  have H2 : ∀ r' tl', (r', some tl') ∈ rl → (keysA tl').Nodup :=
    htnd (fun r' tl' hm => by simp [keysA] at hm)
  have hcov' := hcov (fun r' tl' t' ls' hm _ l' hl' => by simp [keysA] at hm)
  have hmem : d ∈ keysA sizes := hcov' r tl t ls h1 h2 d h3
  have hsome := layer_to_origin_isSome rl sizes hs d hmem r t tl ls h1 h2 h3
  refine ⟨layer_to_origin_keys_nodup rl sizes, ?_⟩
  cases ho : alookup (layer_to_origin rl sizes) d with
  | none => rw [ho] at hsome; cases hsome
  | some rt =>
    obtain ⟨r', t'⟩ := rt
    obtain ⟨tl', ls', hr', ht', hd'⟩ :=
      layer_to_origin_sound rl sizes hs H1 H2 d r' t' ho
    exact ⟨r', t', tl', ls', rfl, hr', ht', hd'⟩

/-- Witness for C1 (amended) at a one-repository registry. -/
theorem ownership_totality_amended_witness :
    (keysA (layer_to_origin [("r", some [("t", ["L1"])])] [("L1", 4)])).Nodup
      ∧ ∃ r' t' tl' ls',
          alookup (layer_to_origin [("r", some [("t", ["L1"])])] [("L1", 4)]) "L1"
              = some (r', t')
            ∧ alookup [("r", some [("t", ["L1"])])] r' = some (some tl')
            ∧ alookup tl' t' = some ls'
            ∧ "L1" ∈ ls' :=
  ownership_totality_amended okClient ["r"] [("r", some [("t", ["L1"])])]
    [("L1", 4)] [] (by rfl) "L1" "r" "t" [("t", ["L1"])] ["L1"]
    (by decide) (by decide) (by decide)

/-- C6 counterexample: digest `L` appears with no attached size in two tags of
repository `r`; the builder invokes the layer-size lookup once per occurrence
— twice for `L` — contradicting "at most once per distinct digest". -/
theorem single_lookup_counterexample :
    build_registry cexDoubleLookupClient ["r"] [] [] []
        = .ok ([("r", some [("t1", ["L"]), ("t2", ["L"])])], [("L", 7)], ["L", "L"])
      ∧ (["L", "L"].count "L") = 2 :=
  ⟨by rfl, by decide⟩

/-- C6 amended: during a successful build — with a client whose size lookups
fail only with `LayerSizeReadError`, as `get_layer_size` does — the builder
invokes `get_layer_size` exactly once per (tag, digest) occurrence it
processes whose manifest entry carries no truthy size (the lookup log equals
the catalog's unsized occurrences in processing order, so a digest appearing
unsized in several tags is looked up once per tag, not once overall), and the
layer-size table ends with exactly one entry per distinct digest encountered:
its keys are distinct and every encountered digest has an entry. -/
theorem single_lookup_amended (client : RegistryClient)
    (hfat : ∀ tk rp layer e, client.layerSize tk rp layer = .error e →
      e = .layerSizeReadError)
    (catalog : List String) (rl : RegistryLayerMap) (sizes : LayerSizeTable)
    (log : List String)
    (hb : build_registry client catalog [] [] [] = .ok (rl, sizes, log)) :
    log = build_lookups client catalog
      ∧ (keysA sizes).Nodup
      ∧ ∀ l ∈ build_digests client catalog, l ∈ keysA sizes := by
  obtain ⟨hlog, hdig⟩ :=
    build_registry_log client hfat catalog [] [] [] rl sizes log hb
  obtain ⟨_, hndd, _, _, _⟩ :=
    build_registry_state client catalog [] [] [] rl sizes log hb
  exact ⟨by simpa using hlog, hndd (by simp [keysA]), hdig⟩

/-- Witness for C6 (amended) at the double-lookup registry: the log is the
two unsized occurrences of `L`, and the table holds `L` once. -/
theorem single_lookup_amended_witness :
    ["L", "L"] = build_lookups cexDoubleLookupClient ["r"]
      ∧ (keysA [("L", (7 : Int))]).Nodup
      ∧ ∀ l ∈ build_digests cexDoubleLookupClient ["r"], l ∈ keysA [("L", (7 : Int))] :=
  single_lookup_amended cexDoubleLookupClient (fun _ _ _ _ h => by cases h) ["r"]
    [("r", some [("t1", ["L"]), ("t2", ["L"])])] [("L", 7)] ["L", "L"] (by rfl)

/-- C7: a repository whose processing fails with `TagsReadError` or
`LayersReadError` is recorded as unavailable and the build continues with the
remaining repositories; a `LayerSizeReadError` aborts the whole build with
that error; and a build never surfaces a recoverable error as its result. -/
theorem builder_error_policy (client : RegistryClient) (repo : String)
    (rest : List String) (rl : RegistryLayerMap) (sizes : LayerSizeTable)
    (log : List String) (e : RegError) (s1 : LayerSizeTable) (lg1 : List String)
    (hp : process_repository client repo sizes log = (.error e, s1, lg1)) :
    ((e = .tagsReadError ∨ e = .layersReadError) →
        build_registry client (repo :: rest) rl sizes log
          = build_registry client rest (insertA rl repo none) s1 lg1)
      ∧ (e = .layerSizeReadError →
          build_registry client (repo :: rest) rl sizes log = .error .layerSizeReadError)
      ∧ (∀ repos rl0 sizes0 log0 e0,
          build_registry client repos rl0 sizes0 log0 = .error e0 →
            e0 ≠ .tagsReadError ∧ e0 ≠ .layersReadError) := by
  refine ⟨?_, ?_, ?_⟩
  · intro he
    have hrec : e.recoverable = true := by
      rcases he with h | h <;> rw [h] <;> rfl
    simp only [build_registry, hp, hrec, if_pos]
  · intro he
    subst he
    simp only [build_registry, hp]
    rfl
  · intro repos
    induction repos with
    | nil =>
      intro rl0 sizes0 log0 e0 hb
      cases hb
    | cons r0 rest0 ih =>
      intro rl0 sizes0 log0 e0 hb
      cases hpr : process_repository client r0 sizes0 log0 with
      | mk fst1 rest1 =>
        obtain ⟨s0, lg0⟩ := rest1
        cases fst1 with
        | ok tm =>
          rw [show build_registry client (r0 :: rest0) rl0 sizes0 log0
              = build_registry client rest0 (insertA rl0 r0 (some tm)) s0 lg0 from by
            simp only [build_registry, hpr]] at hb
          exact ih _ _ _ _ hb
        | error e1 =>
          by_cases hrec : e1.recoverable = true
          · rw [show build_registry client (r0 :: rest0) rl0 sizes0 log0
                = build_registry client rest0 (insertA rl0 r0 none) s0 lg0 from by
              simp only [build_registry, hpr, hrec, if_pos]] at hb
            exact ih _ _ _ _ hb
          · rw [show build_registry client (r0 :: rest0) rl0 sizes0 log0
                = .error e1 from by
              simp only [build_registry, hpr, hrec, Bool.false_eq_true, if_false]] at hb
            cases hb
            constructor
            · intro hc
              rw [hc] at hrec
              exact hrec rfl
            · intro hc
              rw [hc] at hrec
              exact hrec rfl

/-- Witness for C7: repository `a`'s tag listing fails recoverably, so the
build records it unavailable and continues with `b`. -/
theorem builder_error_policy_witness :
    build_registry cexPolicyClient ["a", "b"] [] [] []
      = build_registry cexPolicyClient ["b"] (insertA [] "a" none) [] [] :=
  (builder_error_policy cexPolicyClient "a" ["b"] [] [] [] .tagsReadError [] []
    (by rfl)).1 (Or.inl rfl)

end GitlabRegistryUsage
